import Mathlib

/-!
Verification development for the multi-tier skill-matching engine of
`vector_skill_matrix.py`.

Strings are modelled as `List Char` (`Str`).  Python's `str.lower` /
`str.upper` are modelled on the ASCII range, `str.strip` strips the ASCII
whitespace characters, `str.replace(c, "")` with a one-character pattern is
removal of every occurrence of that character, `x in y` on strings is
substring containment, and `str.split(sep)` is `pySplit`.  A Python
`KeyError` (raised by `skill_sort_key` on a match dictionary that has no
`"skill"` key) is modelled by `Option`, `none` being the raised exception.
-/

namespace VSM

/-- Strings as lists of characters. -/
abbrev Str := List Char

/-- Character list of a string literal. -/
def str (s : String) : Str := s.data

/-- The characters Python's `str.strip()` removes (ASCII whitespace:
space 32, tab 9, newline 10, carriage return 13, vertical tab 11,
form feed 12). -/
def isPySpace (c : Char) : Bool :=
  decide (c.toNat = 32 ∨ c.toNat = 9 ∨ c.toNat = 10 ∨ c.toNat = 13
    ∨ c.toNat = 11 ∨ c.toNat = 12)

/-- Python `str.lower()` on one character (ASCII range, as used by the program). -/
def pyLower (c : Char) : Char :=
  if 65 ≤ c.toNat ∧ c.toNat ≤ 90 then Char.ofNat (c.toNat + 32) else c

/-- Python `str.upper()` on one character (ASCII range, as used by the program). -/
def pyUpper (c : Char) : Char :=
  if 97 ≤ c.toNat ∧ c.toNat ≤ 122 then Char.ofNat (c.toNat - 32) else c

/-- Characters kept by `.replace("-", "").replace("_", "")`: everything but
hyphen (45) and underscore (95). -/
def keepChar (c : Char) : Bool := decide (c.toNat ≠ 45 ∧ c.toNat ≠ 95)

/-- Python `str.strip()`: drop ASCII whitespace from both ends. -/
def pyStrip (l : Str) : Str :=
  ((l.dropWhile isPySpace).reverse.dropWhile isPySpace).reverse

/-- Source `normalize` (vector_skill_matrix.py lines 9-12):
`text.strip().lower().replace("-", "").replace("_", "")`, with empty input
mapped to the empty string. -/
def normalize (text : Str) : Str :=
  if text = [] then [] else ((pyStrip text).map pyLower).filter keepChar

/-- Python substring containment `needle in hay`. -/
def isSub (needle : Str) : Str → Bool
  | [] => needle.isPrefixOf []
  | c :: rest => needle.isPrefixOf (c :: rest) || isSub needle rest

/-- Python `str.split(sep)` for a one-character separator. -/
def pySplit (sep : Char) : Str → List Str
  | [] => [[]]
  | c :: rest =>
    if c = sep then [] :: pySplit sep rest
    else
      match pySplit sep rest with
      | [] => [[c]]
      | piece :: more => (c :: piece) :: more

/-- Fuelled worker for `pyReplace`; the fuel is an upper bound on the input
length, so with `l.length` fuel the base case is never reached early. -/
def pyReplaceFuel : Nat → Str → Str → Str → Str
  | 0, _, _, _ => []
  | _ + 1, [], _, _ => []
  | fuel + 1, c :: rest, pat, rep =>
    if pat ≠ [] ∧ pat.isPrefixOf (c :: rest) then
      rep ++ pyReplaceFuel fuel (rest.drop (pat.length - 1)) pat rep
    else
      c :: pyReplaceFuel fuel rest pat rep

/-- Python `str.replace(pat, rep)` (left-to-right, non-overlapping; the
program only calls it with non-empty patterns).  After a replacement the
scan resumes after the matched pattern; each step consumes at least one
input character, so `l.length` fuel suffices. -/
def pyReplace (l pat rep : Str) : Str :=
  pyReplaceFuel l.length l pat rep

/-- A skill entry of `skills_struct` (lines 102-111). -/
structure Skill where
  name : Str
  proficiency : Str
  isPrimary : Str
  isCurrent : Str
  experienceProjectMths : Nat
deriving DecidableEq, Repr

/-- A course entry of `courses_struct` (lines 116-122). -/
structure Course where
  name : Str
  completedOn : Str
deriving DecidableEq, Repr

/-- A certification entry of `certs_struct` (lines 126-132). -/
structure Cert where
  name : Str
  certifiedOn : Str
deriving DecidableEq, Repr

/-- One element of `structured_data` (lines 152-162). -/
structure Profile where
  empID : Str
  name : Str
  jobLevel : Str
  company : Str
  mailID : Str
  skills_struct : List Skill
  courses_struct : List Course
  certs_struct : List Cert
deriving DecidableEq, Repr

/-- The `match_type` strings the aggregator assigns:
`exact`, `and` (`conj`), `or` (`disj`), `partial` (`sub`), `course`. -/
inductive MatchType where
  | exact
  | conj
  | disj
  | sub
  | course
deriving DecidableEq, Repr

/-- The optional evidence carried by a match dictionary: a `"skill"` key or a
`"course"` key. -/
inductive Detail where
  | skill (s : Skill)
  | course (c : Course)
deriving DecidableEq, Repr

/-- A match as produced by a strategy, before the aggregator assigns
`match_type`. -/
structure PMatch where
  profile : Profile
  detail : Detail
deriving DecidableEq, Repr

/-- A match after the aggregator set its `match_type`. -/
structure Match where
  profile : Profile
  detail : Detail
  tag : MatchType
deriving DecidableEq, Repr

/-- Setting `m["match_type"]`. -/
def PMatch.tagged (m : PMatch) (t : MatchType) : Match :=
  ⟨m.profile, m.detail, t⟩

/-- Source `find_skill_matches` (lines 14-27).  `p` is the `partial` keyword
argument.  The per-profile `for`/`break` loop is the first skill whose
normalized name equals the normalized phrase or — when `p` is set — contains
some normalized phrase part as a substring. -/
def find_skill_matches (skill_phrase : Str) (structured_data : List Profile)
    (p : Bool) : List PMatch :=
  let skill_phrase_norm := normalize skill_phrase
  let skill_parts := (pySplit '|' skill_phrase).map normalize
  structured_data.filterMap (fun profile =>
    (profile.skills_struct.find? (fun s =>
        skill_phrase_norm == normalize s.name
          || (p && skill_parts.any (fun part => isSub part (normalize s.name))))).map
      (fun s => ⟨profile, Detail.skill s⟩))

/-- Source `find_and_matches` (lines 29-37): first skill whose normalized
name contains every part. -/
def find_and_matches (skill_parts : List Str) (structured_data : List Profile) :
    List PMatch :=
  structured_data.filterMap (fun profile =>
    (profile.skills_struct.find? (fun s =>
        skill_parts.all (fun part => isSub part (normalize s.name)))).map
      (fun s => ⟨profile, Detail.skill s⟩))

/-- Source `find_or_matches` (lines 39-47): first skill whose normalized name
contains at least one part. -/
def find_or_matches (skill_parts : List Str) (structured_data : List Profile) :
    List PMatch :=
  structured_data.filterMap (fun profile =>
    (profile.skills_struct.find? (fun s =>
        skill_parts.any (fun part => isSub part (normalize s.name)))).map
      (fun s => ⟨profile, Detail.skill s⟩))

/-- Source `find_course_matches` (lines 49-58): first course whose normalized
name contains the whole normalized phrase or any `'|'`-piece of the
normalized phrase. -/
def find_course_matches (skill_phrase : Str) (structured_data : List Profile) :
    List PMatch :=
  let skill_phrase_norm := normalize skill_phrase
  structured_data.filterMap (fun profile =>
    (profile.courses_struct.find? (fun c =>
        isSub skill_phrase_norm (normalize c.name)
          || (pySplit '|' skill_phrase_norm).any
              (fun part => isSub part (normalize c.name)))).map
      (fun c => ⟨profile, Detail.course c⟩))

/-- The sort-key tuple of `skill_sort_key` (lines 60-68). -/
structure SortKey where
  k1 : Int
  k2 : Int
  k3 : Int
  k4 : Int
deriving DecidableEq, Repr

/-- The `proficiency_order` dictionary lookup with default 0 (line 61 and 67). -/
def proficiency_order (s : Str) : Int :=
  if s = str "EXPERT" then 4
  else if s = str "PROFICIENT" then 3
  else if s = str "COMPETENT" then 2
  else if s = str "BEGINNER" then 1
  else 0

/-- Source `skill_sort_key` (lines 60-68).  The source evaluates
`match["skill"]`, which raises `KeyError` when the match carries a course
instead of a skill; the raised exception is modelled by `none`. -/
def skill_sort_key (m : Match) : Option SortKey :=
  match m.detail with
  | Detail.course _ => none
  | Detail.skill s =>
    some { k1 := -(s.experienceProjectMths : Int),
           k2 := if s.isCurrent.map pyUpper = str "YES" then -1 else 0,
           k3 := if s.isPrimary.map pyUpper = str "YES" then 1 else 0,
           k4 := -(proficiency_order (s.proficiency.map pyUpper)) }

/-- Lexicographic order on sort-key tuples, as Python compares tuples. -/
def keyLeP (a b : SortKey) : Prop :=
  a.k1 < b.k1 ∨ (a.k1 = b.k1 ∧ (a.k2 < b.k2 ∨ (a.k2 = b.k2 ∧
    (a.k3 < b.k3 ∨ (a.k3 = b.k3 ∧ a.k4 ≤ b.k4)))))

instance (a b : SortKey) : Decidable (keyLeP a b) := by
  unfold keyLeP
  infer_instance

/-- Strict lexicographic order on sort-key tuples ("ranks strictly earlier"). -/
def keyLtP (a b : SortKey) : Prop :=
  a.k1 < b.k1 ∨ (a.k1 = b.k1 ∧ (a.k2 < b.k2 ∨ (a.k2 = b.k2 ∧
    (a.k3 < b.k3 ∨ (a.k3 = b.k3 ∧ a.k4 < b.k4)))))

instance (a b : SortKey) : Decidable (keyLtP a b) := by
  unfold keyLtP
  infer_instance

/-- Boolean form of the key order, used by the executable sort. -/
def keyLe (a b : SortKey) : Bool := decide (keyLeP a b)

/-- Stable insertion into a sorted list: the element goes before the first
entry it compares less-or-equal to, so earlier-listed elements win ties. -/
def sortInsert (le : α → α → Bool) (x : α) : List α → List α
  | [] => [x]
  | y :: ys => if le x y then x :: y :: ys else y :: sortInsert le x ys

/-- Stable insertion sort.  A stable sort by a total preorder is unique, so
this is the list Python's stable `sorted` returns for the same key order. -/
def sortedBy (le : α → α → Bool) : List α → List α
  | [] => []
  | x :: xs => sortInsert le x (sortedBy le xs)

/-- Comparison of decorated elements by their sort key. -/
def pairLe (a b : SortKey × Match) : Bool := keyLe a.1 b.1

/-- The key-decoration pass of CPython's `sorted(l, key=...)`: the key of
every element is computed before any comparison, so a single `KeyError`
aborts the whole sort (`none`). -/
def decorate : List Match → Option (List (SortKey × Match))
  | [] => some []
  | m :: rest =>
    match skill_sort_key m, decorate rest with
    | some k, some ps => some ((k, m) :: ps)
    | _, _ => none

/-- Python `sorted(l, key=skill_sort_key)`: decorate, stably sort by the
keys, undecorate. -/
def sortByKey (l : List Match) : Option (List Match) :=
  match decorate l with
  | none => none
  | some pairs => some ((sortedBy pairLe pairs).map Prod.snd)

/-- Source `clean_skills` loop (lines 70-78), with the `seen` set modelled as
the list of normalized names already kept. -/
def clean_skills_aux (seen : List Str) : List Skill → List Skill
  | [] => []
  | s :: rest =>
    if normalize s.name ≠ [] ∧ normalize s.name ∉ seen then
      s :: clean_skills_aux (normalize s.name :: seen) rest
    else
      clean_skills_aux seen rest

/-- Source `clean_skills` (lines 70-78). -/
def clean_skills (skills_struct : List Skill) : List Skill :=
  clean_skills_aux [] skills_struct

/-- A raw skill entry of the ingestion input: `s["skill"]["path"]` plus the
flat fields, each defaulting per `.get`.  The numeric field is modelled as a
`Nat`; the `or 0` null-guard of the source is absorbed by the default. -/
structure RawSkill where
  path : Str
  proficiency : Str
  isPrimary : Str
  isCurrent : Str
  experienceProjectMths : Nat
deriving DecidableEq, Repr

/-- A raw course entry: `c["course"]["courseName"]` and `c["completedon"]`. -/
structure RawCourse where
  courseName : Str
  completedon : Str
deriving DecidableEq, Repr

/-- A raw certification entry. -/
structure RawCert where
  certificationName : Str
  certifiedon : Str
deriving DecidableEq, Repr

/-- A raw employee record of the ingestion input. -/
structure RawEmployee where
  empID : Str
  name : Str
  jobLevel : Str
  company : Str
  mailID : Str
  skills : List RawSkill
  courses : List RawCourse
  certifications : List RawCert
deriving DecidableEq, Repr

/-- The per-record body of the ingestion loop (lines 94-162): keep skill
entries with a truthy `path`, run `clean_skills`, keep course and
certification entries with a truthy name (no deduplication for those). -/
def build_profile (emp : RawEmployee) : Profile :=
  { empID := emp.empID
    name := emp.name
    jobLevel := emp.jobLevel
    company := emp.company
    mailID := emp.mailID
    skills_struct := clean_skills ((emp.skills.filter (fun s => s.path ≠ [])).map
      (fun s => ⟨s.path, s.proficiency, s.isPrimary, s.isCurrent, s.experienceProjectMths⟩))
    courses_struct := (emp.courses.filter (fun c => c.courseName ≠ [])).map
      (fun c => ⟨c.courseName, c.completedon⟩)
    certs_struct := (emp.certifications.filter (fun c => c.certificationName ≠ [])).map
      (fun c => ⟨c.certificationName, c.certifiedon⟩) }

/-- The employee IDs of a match list (the `existing_ids` sets). -/
def idsOf (ms : List Match) : List Str := ms.map (fun m => m.profile.empID)

/-- One merge step of the aggregator: keep the accumulated list and append
the new tier's matches whose profile identity is not yet present. -/
def addTier (acc new : List Match) : List Match :=
  acc ++ new.filter (fun m => !((idsOf acc).contains m.profile.empID))

/-- The aggregator (lines 196-231): exact, then — only for multi-part
phrases — and/or, then partial, then course, each deduplicated by
`empID` against everything accumulated so far. -/
def top_matches (skill_phrase : Str) (structured_data : List Profile) : List Match :=
  let skill_parts := (pySplit '|' skill_phrase).map normalize
  let t1 := (find_skill_matches skill_phrase structured_data false).map
    (fun m => m.tagged MatchType.exact)
  let t2 := if skill_parts.length > 1 then
      addTier t1 ((find_and_matches skill_parts structured_data).map
        (fun m => m.tagged MatchType.conj))
    else t1
  let t3 := if skill_parts.length > 1 then
      addTier t2 ((find_or_matches skill_parts structured_data).map
        (fun m => m.tagged MatchType.disj))
    else t2
  let t4 := addTier t3 ((find_skill_matches skill_phrase structured_data true).map
    (fun m => m.tagged MatchType.sub))
  addTier t4 ((find_course_matches skill_phrase structured_data).map
    (fun m => m.tagged MatchType.course))

/-- The metadata record a Vector Index query returns for one document
(lines 139-151 / 239). -/
structure MetaRecord where
  empID : Str
  name : Str
  jobLevel : Str
  company : Str
  mailID : Str
  skills_list : Str
deriving DecidableEq, Repr

/-- The loop body of the semantic fallback (lines 238-252): duplicates of an
accumulated profile identity are skipped, every other result is printed, and
the loop breaks after one printed result when `len(top_matches) + 1 >= 3`.
`top_matches` itself is never modified, so the break test is invariant. -/
def semantic_loop (tm : List Match) : List MetaRecord → List MetaRecord
  | [] => []
  | meta :: rest =>
    if (tm.map (fun m => m.profile.empID)).contains meta.empID then
      semantic_loop tm rest
    else if tm.length + 1 ≥ 3 then [meta]
    else meta :: semantic_loop tm rest

/-- The semantic fallback (lines 233-252): runs only when fewer than 3
matches were accumulated; it prints metadata records and leaves the match
list untouched. -/
def semantic_display (tm : List Match) (metas : List MetaRecord) : List MetaRecord :=
  if tm.length < 3 then semantic_loop tm metas else []

/-- The ranker (lines 254-271): best exact by sort key, else best `and`;
then the first two of the non-exact/non-`and` matches sorted by the key.
`none` models the `KeyError` crash of a sort that sees a course match. -/
def final_matches (tm : List Match) : Option (List Match) :=
  match sortByKey (tm.filter (fun m => m.tag == MatchType.exact)) with
  | none => none
  | some se =>
    match se.head? with
    | some best_exact =>
      (sortByKey (tm.filter (fun m =>
          !(m.tag == MatchType.exact || m.tag == MatchType.conj)))).map
        (fun ns => best_exact :: ns.take 2)
    | none =>
      match sortByKey (tm.filter (fun m => m.tag == MatchType.conj)) with
      | none => none
      | some sa =>
        (sortByKey (tm.filter (fun m =>
            !(m.tag == MatchType.exact || m.tag == MatchType.conj)))).map
          (fun ns =>
            (match sa.head? with
             | some best_and => [best_and]
             | none => []) ++ ns.take 2)

/-- Does `(\?|$)` match at this point of the remaining input?  (Python
non-MULTILINE `$` also matches just before a single trailing newline.) -/
def termCheck (r : Str) : Bool :=
  match r with
  | [] => true
  | c :: rest => c = '?' || (c = '\n' && rest = [])

/-- The lazy group `(.+?)` followed by `(\?|$)`: grow the group one
non-newline character at a time and stop at the first point (after at least
one character) where the terminator matches.  The first argument is the
remaining input, the second the reversed group read so far. -/
def lazyGroup : Str → Str → Option Str
  | [], acc => if acc ≠ [] then some acc.reverse else none
  | c :: rest, acc =>
    if acc ≠ [] ∧ termCheck (c :: rest) then some acc.reverse
    else if c = '\n' then none
    else lazyGroup rest (c :: acc)

/-- `re.search(r"who knows (.+?)(\?|$)", q)`: try every start position from
the left; where the literal `"who knows "` matches, try the lazy group. -/
def searchGroup : Str → Option Str
  | [] => none
  | c :: rest =>
    if (str "who knows ").isPrefixOf (c :: rest) then
      match lazyGroup ((c :: rest).drop 10) [] with
      | some g => some g
      | none => searchGroup rest
    else searchGroup rest

/-- Source `extract_skill_phrase` (lines 179-183): search the lowered query
and return the stripped group, `None` when the pattern does not match. -/
def extract_skill_phrase (query : Str) : Option Str :=
  (searchGroup (query.map pyLower)).map pyStrip

/-- The observable outcome of one query run: either the terminal "Could not
extract skill phrase" report (followed by `exit()`), or the accumulated
match list, the metadata records the fallback printed, and the ranker's
output (`none` when `top_matches` is empty — the final block is skipped —
or when the sort crashed). -/
inductive RunResult where
  | noPhrase
  | results (top : List Match) (displayed : List MetaRecord)
      (finalRes : Option (List Match))
deriving DecidableEq, Repr

/-- The accumulated match list of a run. -/
def RunResult.accumulated : RunResult → List Match
  | RunResult.noPhrase => []
  | RunResult.results tm _ _ => tm

/-- The metadata records the fallback printed during a run. -/
def RunResult.shown : RunResult → List MetaRecord
  | RunResult.noPhrase => []
  | RunResult.results _ d _ => d

/-- The query-serving part of the program (lines 177-271): extract the
phrase (exiting when absent or empty), rewrite `" and "`/`" or "` to `"|"`,
aggregate the tiers, run the fallback display, and rank.  The Vector Index's
reply to the one fallback query is the `vector_results` argument. -/
def run_query (query : Str) (structured_data : List Profile)
    (vector_results : List MetaRecord) : RunResult :=
  match extract_skill_phrase query with
  | none => RunResult.noPhrase
  | some sp0 =>
    if sp0 = [] then RunResult.noPhrase
    else
      let sp := pyReplace (pyReplace sp0 (str " and ") (str "|")) (str " or ") (str "|")
      let tm := top_matches sp structured_data
      RunResult.results tm (semantic_display tm vector_results)
        (if tm = [] then none else final_matches tm)

/-- The per-skill test of the exact tier (line 21). -/
def exactSkillTest (skill_phrase : Str) (s : Skill) : Bool :=
  normalize skill_phrase == normalize s.name

/-- The per-skill test of the partial tier (lines 21 and 24, `partial=True`). -/
def subSkillTest (skill_phrase : Str) (s : Skill) : Bool :=
  normalize skill_phrase == normalize s.name
    || ((pySplit '|' skill_phrase).map normalize).any
        (fun part => isSub part (normalize s.name))

/-- The per-skill test of the conjunctive tier (line 34). -/
def andSkillTest (skill_parts : List Str) (s : Skill) : Bool :=
  skill_parts.all (fun part => isSub part (normalize s.name))

/-- The per-skill test of the disjunctive tier (line 44). -/
def orSkillTest (skill_parts : List Str) (s : Skill) : Bool :=
  skill_parts.any (fun part => isSub part (normalize s.name))

/-- The per-course test of the course tier (line 55). -/
def courseTest (skill_phrase : Str) (c : Course) : Bool :=
  isSub (normalize skill_phrase) (normalize c.name)
    || (pySplit '|' (normalize skill_phrase)).any
        (fun part => isSub part (normalize c.name))

/-- Whether a profile is hit by the exact strategy. -/
def exact_pred (skill_phrase : Str) (p : Profile) : Bool :=
  p.skills_struct.any (exactSkillTest skill_phrase)

/-- Whether a profile is hit by the conjunctive strategy. -/
def and_pred (skill_parts : List Str) (p : Profile) : Bool :=
  p.skills_struct.any (andSkillTest skill_parts)

/-- Whether a profile is hit by the disjunctive strategy. -/
def or_pred (skill_parts : List Str) (p : Profile) : Bool :=
  p.skills_struct.any (orSkillTest skill_parts)

/-- Whether a profile is hit by the partial strategy. -/
def sub_pred (skill_phrase : Str) (p : Profile) : Bool :=
  p.skills_struct.any (subSkillTest skill_phrase)

/-- Whether a profile is hit by the course strategy. -/
def course_pred (skill_phrase : Str) (p : Profile) : Bool :=
  p.courses_struct.any (courseTest skill_phrase)

/-- The highest-priority applicable tier that matches a profile
(EXACT, then — for multi-part phrases — AND and OR, then PARTIAL, then
COURSE), mirroring the aggregator's cascade. -/
def tier_of (skill_phrase : Str) (p : Profile) : Option MatchType :=
  if exact_pred skill_phrase p = true then some MatchType.exact
  else if 1 < ((pySplit '|' skill_phrase).map normalize).length
      ∧ and_pred ((pySplit '|' skill_phrase).map normalize) p = true then some MatchType.conj
  else if 1 < ((pySplit '|' skill_phrase).map normalize).length
      ∧ or_pred ((pySplit '|' skill_phrase).map normalize) p = true then some MatchType.disj
  else if sub_pred skill_phrase p = true then some MatchType.sub
  else if course_pred skill_phrase p = true then some MatchType.course
  else none

/-- A strategy scan in uniform shape: per profile, an optional piece of
evidence; hit profiles are kept in corpus order with their evidence. -/
def strat (g : Profile → Option Detail) (structured_data : List Profile) : List PMatch :=
  structured_data.filterMap (fun profile => (g profile).map (fun d => PMatch.mk profile d))

/-- The sort key the claim describes, written from its words: the ascending
tuple `(-experienceMonths, isCurrent==YES ? -1 : 0, isPrimary==YES ? 1 : 0,
-proficiencyRank)` with EXPERT=4, PROFICIENT=3, COMPETENT=2, BEGINNER=1,
absent=0. -/
def spec_sort_key (s : Skill) : SortKey :=
  { k1 := -(s.experienceProjectMths : Int)
    k2 := if s.isCurrent = str "YES" then -1 else 0
    k3 := if s.isPrimary = str "YES" then 1 else 0
    k4 := -(if s.proficiency = str "EXPERT" then 4
            else if s.proficiency = str "PROFICIENT" then 3
            else if s.proficiency = str "COMPETENT" then 2
            else if s.proficiency = str "BEGINNER" then 1 else (0 : Int)) }

/-- Modelled from the claim's words for C7: discard skill entries with an
empty (raw) skill name, then deduplicate the rest by normalized name,
keeping the first occurrence in source order. -/
def spec_clean_claim : List Skill → List Skill
  | [] => []
  | s :: rest =>
    if s.name = [] then spec_clean_claim rest
    else s :: spec_clean_claim (rest.filter (fun t => !(normalize t.name == normalize s.name)))
termination_by l => l.length
decreasing_by
  all_goals simp only [List.length_cons]
  · omega
  · have := List.length_filter_le (fun t => !(normalize t.name == normalize s.name)) rest
    omega

/-- What `clean_skills` actually computes, in declarative first-occurrence
form: entries whose *normalized* name is empty are dropped, and of each
nonempty normalized name only the first occurrence survives. -/
def spec_clean_code : List Skill → List Skill
  | [] => []
  | s :: rest =>
    if normalize s.name = [] then spec_clean_code rest
    else s :: spec_clean_code (rest.filter (fun t => !(normalize t.name == normalize s.name)))
termination_by l => l.length
decreasing_by
  all_goals simp only [List.length_cons]
  · omega
  · have := List.length_filter_le (fun t => !(normalize t.name == normalize s.name)) rest
    omega

/-- Key comparison lifted to matches whose keys are defined. -/
def matchKeyLe (a b : Match) : Prop :=
  ∀ ka kb, skill_sort_key a = some ka → skill_sort_key b = some kb → keyLeP ka kb

/-- Concrete corpus member whose only evidence is a course named "NLP". -/
def c1_profile : Profile :=
  ⟨str "E1", str "Ann", str "L1", str "ACME", str "ann@x.com", [],
    [⟨str "NLP", str "2020-01-01"⟩], []⟩

/-- The course match the aggregator produces for `c1_profile` and phrase "nlp". -/
def c1_match : Match :=
  ⟨c1_profile, Detail.course ⟨str "NLP", str "2020-01-01"⟩, MatchType.course⟩

/-- Three Vector Index results with identities absent from any corpus used
alongside them. -/
def c2_m1 : MetaRecord := ⟨str "M1", str "n1", str "j", str "c", str "m1@x", str "Hadoop"⟩

/-- Second fresh Vector Index result. -/
def c2_m2 : MetaRecord := ⟨str "M2", str "n2", str "j", str "c", str "m2@x", str "Spark"⟩

/-- Third fresh Vector Index result. -/
def c2_m3 : MetaRecord := ⟨str "M3", str "n3", str "j", str "c", str "m3@x", str "Kafka"⟩

/-- Profile with the single skill "Big Data" (exact hit for phrase "big data"). -/
def c4_p1 : Profile :=
  ⟨str "E2", str "Bob", str "L1", str "ACME", str "bob@x.com",
    [⟨str "Big Data", str "EXPERT", str "YES", str "YES", 24⟩], [], []⟩

/-- Profile with the single skill "Python", 36 months, not current. -/
def c5_p : Profile :=
  ⟨str "E3", str "Cam", str "L2", str "ACME", str "cam@x.com",
    [⟨str "Python", str "EXPERT", str "NO", str "NO", 36⟩], [], []⟩

/-- The exact match produced for `c5_p` and phrase "python". -/
def c5_m : Match :=
  ⟨c5_p, Detail.skill ⟨str "Python", str "EXPERT", str "NO", str "NO", 36⟩, MatchType.exact⟩

/-- The 36-month, not-current "Python" skill of the spec's ranking example. -/
def c6_s36 : Skill := ⟨str "Python", str "", str "", str "NO", 36⟩

/-- The 12-month, current "Python" skill of the spec's ranking example. -/
def c6_s12 : Skill := ⟨str "Python", str "", str "", str "YES", 12⟩

/-- Carrier profile for the C6 ranking example matches. -/
def c6_p : Profile := ⟨str "E4", str "Dee", str "L1", str "ACME", str "dee@x.com", [], [], []⟩

/-- A skill entry whose raw name "-" is non-empty but normalizes to "". -/
def c7_dash : Skill := ⟨str "-", str "", str "", str "", 0⟩

/-- A raw employee record with the single skill path "-". -/
def c7_emp : RawEmployee :=
  ⟨str "E5", str "Eve", str "L1", str "ACME", str "eve@x.com",
    [⟨str "-", str "", str "", str "", 0⟩], [], []⟩

/-- Profile with the combined skill "NLP-BigData-Engineering". -/
def c8_pA : Profile :=
  ⟨str "E6", str "Fay", str "L1", str "ACME", str "fay@x.com",
    [⟨str "NLP-BigData-Engineering", str "", str "", str "", 0⟩], [], []⟩

/-- Profile with only the skill "NLP Basics". -/
def c8_pB : Profile :=
  ⟨str "E7", str "Gil", str "L1", str "ACME", str "gil@x.com",
    [⟨str "NLP Basics", str "", str "", str "", 0⟩], [], []⟩

/-- The example parts of the claim: `["nlp", "bigdata"]`. -/
def c8_parts : List Str := [str "nlp", str "bigdata"]

theorem char_eq_of_toNat_eq {a b : Char} (h : a.toNat = b.toNat) : a = b := by
  apply Char.eq_of_val_eq
  exact UInt32.toNat.inj h

theorem toNat_ofNat_valid (n : Nat) (hv : Nat.isValidChar n) : (Char.ofNat n).toNat = n := by
  simp only [Char.ofNat, dif_pos hv]
  rfl

theorem pyLower_toNat (c : Char) :
    (pyLower c).toNat = if 65 ≤ c.toNat ∧ c.toNat ≤ 90 then c.toNat + 32 else c.toNat := by
  unfold pyLower
  split
  · rename_i h
    exact toNat_ofNat_valid _ (Or.inl (by omega))
  · rfl

theorem pyLower_idem (c : Char) : pyLower (pyLower c) = pyLower c := by
  apply char_eq_of_toNat_eq
  simp only [pyLower_toNat]
  split_ifs <;> omega

theorem isPySpace_true_iff (c : Char) :
    isPySpace c = true ↔
      c.toNat = 32 ∨ c.toNat = 9 ∨ c.toNat = 10 ∨ c.toNat = 13 ∨ c.toNat = 11 ∨ c.toNat = 12 := by
  unfold isPySpace
  exact decide_eq_true_iff

theorem isPySpace_pyLower (c : Char) : isPySpace (pyLower c) = isPySpace c := by
  unfold isPySpace
  rw [decide_eq_decide, pyLower_toNat]
  split_ifs <;> omega

theorem keepChar_true_iff (c : Char) : keepChar c = true ↔ c.toNat ≠ 45 ∧ c.toNat ≠ 95 := by
  unfold keepChar
  exact decide_eq_true_iff

theorem keepChar_pyLower (c : Char) : keepChar (pyLower c) = keepChar c := by
  unfold keepChar
  rw [decide_eq_decide, pyLower_toNat]
  split_ifs <;> omega

theorem dropWhile_dropWhile (p : α → Bool) (l : List α) :
    (l.dropWhile p).dropWhile p = l.dropWhile p := by
  induction l with
  | nil => rfl
  | cons x xs ih =>
    rcases h : p x with _ | _ <;> simp [List.dropWhile_cons, h, ih]

theorem dropWhile_eq_self_of_prefix {p : α → Bool} {x y : List α}
    (hpre : x <+: y) (hy : y.dropWhile p = y) : x.dropWhile p = x := by
  cases x with
  | nil => rfl
  | cons a xs =>
    obtain ⟨t, ht⟩ := hpre
    have ha : p a = false := by
      rcases h : p a with _ | _
      · rfl
      · exfalso
        rw [← ht, List.cons_append, List.dropWhile_cons, h, if_pos rfl] at hy
        have hlen := (@List.dropWhile_sublist _ (xs ++ t) p).length_le
        have hcon := congrArg List.length hy
        simp only [List.length_cons] at hcon
        omega
    rw [List.dropWhile_cons, ha]
    simp

theorem pyStrip_idem (l : Str) : pyStrip (pyStrip l) = pyStrip l := by
  unfold pyStrip
  set p := isPySpace
  set A := l.dropWhile p with hA
  set B := A.reverse.dropWhile p with hB
  have f1 : B.dropWhile p = B := by rw [hB]; exact dropWhile_dropWhile p A.reverse
  have f4 : A.dropWhile p = A := by rw [hA]; exact dropWhile_dropWhile p l
  have f3 : B.reverse <+: A := by
    have f2 : B <:+ A.reverse := List.dropWhile_suffix p
    have := List.reverse_prefix.mpr f2
    rwa [List.reverse_reverse] at this
  have f5 : B.reverse.dropWhile p = B.reverse := dropWhile_eq_self_of_prefix f3 f4
  rw [f5, List.reverse_reverse, f1]

theorem mem_dropWhile_of_not_pred {p : α → Bool} {a : α} (ha : p a = false) :
    ∀ {l : List α}, a ∈ l → a ∈ l.dropWhile p := by
  intro l
  induction l with
  | nil => intro h; exact absurd h (List.not_mem_nil a)
  | cons x xs ih =>
    intro h
    rcases hx : p x with _ | _
    · rwa [List.dropWhile_cons, hx, if_neg (by simp)]
    · rw [List.dropWhile_cons, hx, if_pos rfl]
      rcases List.mem_cons.mp h with h | h
      · subst h; rw [hx] at ha; exact absurd ha (by simp)
      · exact ih h

theorem mem_pyStrip_of_not_space {c : Char} (hc : isPySpace c = false) {l : Str}
    (h : c ∈ l) : c ∈ pyStrip l := by
  unfold pyStrip
  rw [List.mem_reverse]
  apply mem_dropWhile_of_not_pred hc
  rw [List.mem_reverse]
  exact mem_dropWhile_of_not_pred hc h

theorem pyStrip_sublist (l : Str) : List.Sublist (pyStrip l) l := by
  unfold pyStrip
  have h1 : List.Sublist ((l.dropWhile isPySpace).reverse.dropWhile isPySpace)
      ((l.dropWhile isPySpace).reverse) :=
    List.dropWhile_sublist isPySpace
  have h2 := List.reverse_sublist.mpr h1
  rw [List.reverse_reverse] at h2
  exact h2.trans (List.dropWhile_sublist isPySpace)

theorem pyStrip_map_pyLower (l : Str) :
    pyStrip (l.map pyLower) = (pyStrip l).map pyLower := by
  unfold pyStrip
  have hfun : (isPySpace ∘ pyLower) = isPySpace := funext (fun c => isPySpace_pyLower c)
  rw [List.dropWhile_map, hfun, ← List.map_reverse, List.dropWhile_map, hfun, List.map_reverse]

theorem map_pyLower_idem (l : Str) : (l.map pyLower).map pyLower = l.map pyLower := by
  rw [List.map_map]
  exact List.map_congr_left (fun c _ => pyLower_idem c)

theorem normalize_eq_of_no_dash {t : Str} (hd : '-' ∉ t) (hu : '_' ∉ t) :
    normalize t = (pyStrip t).map pyLower := by
  unfold normalize
  split
  · rename_i h
    subst h
    simp [pyStrip]
  · apply List.filter_eq_self.mpr
    intro c hc
    obtain ⟨c', hc', rfl⟩ := List.mem_map.mp hc
    have hc't : c' ∈ t := (pyStrip_sublist t).subset hc'
    rw [keepChar_pyLower]
    apply (keepChar_true_iff c').mpr
    constructor
    · intro h
      exact hd (by rwa [@char_eq_of_toNat_eq c' '-' (by rw [h]; rfl)] at hc't)
    · intro h
      exact hu (by rwa [@char_eq_of_toNat_eq c' '_' (by rw [h]; rfl)] at hc't)

theorem dash_not_mem_map_pyLower {t : Str} (hd : '-' ∉ t) : '-' ∉ t.map pyLower := by
  intro h
  obtain ⟨c, hc, hlc⟩ := List.mem_map.mp h
  have hn := congrArg Char.toNat hlc
  rw [pyLower_toNat, show ('-').toNat = 45 from rfl] at hn
  have hc45 : c.toNat = 45 := by
    split_ifs at hn <;> omega
  exact hd (by rwa [@char_eq_of_toNat_eq c '-' (by rw [hc45]; rfl)] at hc)

theorem underscore_not_mem_map_pyLower {t : Str} (hu : '_' ∉ t) : '_' ∉ t.map pyLower := by
  intro h
  obtain ⟨c, hc, hlc⟩ := List.mem_map.mp h
  have hn := congrArg Char.toNat hlc
  rw [pyLower_toNat, show ('_').toNat = 95 from rfl] at hn
  have hc95 : c.toNat = 95 := by
    split_ifs at hn <;> omega
  exact hu (by rwa [@char_eq_of_toNat_eq c '_' (by rw [hc95]; rfl)] at hc)

/-- Claim C3 counterexample: `normalize` is not idempotent — stripping runs
before hyphen removal, so `"- a"` normalizes to `" a"`, which normalizes
again to `"a"`. -/
theorem c3_counterexample :
    normalize (normalize (str "- a")) ≠ normalize (str "- a") := by decide

/-- Claim C3 as amended: `normalize` is idempotent on every string that
contains no hyphen and no underscore (removing those characters can expose
surrounding whitespace, the one source of non-idempotence), and
`normalize "Big-Data" = normalize "big_data" = "bigdata"`. -/
theorem c3_normalize_idempotent_no_dash :
    (∀ t : Str, '-' ∉ t → '_' ∉ t → normalize (normalize t) = normalize t)
    ∧ normalize (str "Big-Data") = str "bigdata"
    ∧ normalize (str "big_data") = str "bigdata" := by
  refine ⟨?_, by decide, by decide⟩
  intro t hd hu
  rw [normalize_eq_of_no_dash hd hu]
  set v := (pyStrip t).map pyLower with hv
  have hdv : '-' ∉ v := by
    rw [hv]
    exact dash_not_mem_map_pyLower (fun h => hd ((pyStrip_sublist t).subset h))
  have huv : '_' ∉ v := by
    rw [hv]
    exact underscore_not_mem_map_pyLower (fun h => hu ((pyStrip_sublist t).subset h))
  rw [normalize_eq_of_no_dash hdv huv, hv, pyStrip_map_pyLower, pyStrip_idem,
    map_pyLower_idem]

/-- Claim C3 witness: the amended idempotence applied at the concrete
hyphen-free, underscore-free string "nlp x". -/
theorem c3_witness :
    normalize (normalize (str "nlp x")) = normalize (str "nlp x") :=
  c3_normalize_idempotent_no_dash.1 (str "nlp x") (by decide) (by decide)

theorem pySplit_ne_nil (sep : Char) (l : Str) : pySplit sep l ≠ [] := by
  cases l with
  | nil => simp [pySplit]
  | cons c rest =>
    unfold pySplit
    split
    · simp
    · split <;> simp

theorem mem_pySplit_not_sep {sep : Char} :
    ∀ {l : Str}, ∀ piece ∈ pySplit sep l, sep ∉ piece := by
  intro l
  induction l with
  | nil =>
    intro piece hp
    simp only [pySplit, List.mem_singleton] at hp
    subst hp
    exact List.not_mem_nil sep
  | cons c rest ih =>
    intro piece hp
    unfold pySplit at hp
    split at hp
    · rcases List.mem_cons.mp hp with h | h
      · subst h
        exact List.not_mem_nil sep
      · exact ih piece h
    · rename_i hc
      rcases hsplit : pySplit sep rest with _ | ⟨p0, more⟩
      · exact absurd hsplit (pySplit_ne_nil sep rest)
      · rw [hsplit] at hp
        rcases List.mem_cons.mp hp with h | h
        · subst h
          intro hmem
          rcases List.mem_cons.mp hmem with h | h
          · exact hc h.symm
          · exact ih p0 (by rw [hsplit]; exact List.mem_cons_self p0 more) h
        · exact ih piece (by rw [hsplit]; exact List.mem_cons_of_mem p0 h)

theorem one_lt_length_pySplit_iff (sep : Char) (l : Str) :
    1 < (pySplit sep l).length ↔ sep ∈ l := by
  induction l with
  | nil => simp [pySplit]
  | cons c rest ih =>
    unfold pySplit
    split
    · rename_i hc
      subst hc
      have := pySplit_ne_nil c rest
      constructor
      · intro _
        exact List.mem_cons_self c rest
      · intro _
        have hpos : 0 < (pySplit c rest).length := List.length_pos.mpr this
        simp only [List.length_cons]
        omega
    · rename_i hc
      rcases hsplit : pySplit sep rest with _ | ⟨p0, more⟩
      · exact absurd hsplit (pySplit_ne_nil sep rest)
      · rw [hsplit] at ih
        simp only [List.length_cons] at ih ⊢
        rw [List.mem_cons]
        constructor
        · intro h
          exact Or.inr (ih.mp (by omega))
        · rintro (h | h)
          · exact absurd h.symm hc
          · have := ih.mpr h
            omega

theorem pyLower_eq_pipe {c : Char} (h : pyLower c = '|') : c = '|' := by
  have hn := congrArg Char.toNat h
  rw [pyLower_toNat, show ('|').toNat = 124 from rfl] at hn
  have hc : c.toNat = 124 := by
    split_ifs at hn <;> omega
  exact @char_eq_of_toNat_eq c '|' (by rw [hc]; rfl)

theorem pipe_mem_normalize_iff (t : Str) : '|' ∈ normalize t ↔ '|' ∈ t := by
  unfold normalize
  split
  · rename_i h
    subst h
    simp
  · constructor
    · intro h
      have h1 : '|' ∈ (pyStrip t).map pyLower := (List.mem_of_mem_filter h)
      obtain ⟨c, hc, hlc⟩ := List.mem_map.mp h1
      rw [pyLower_eq_pipe hlc] at hc
      exact (pyStrip_sublist t).subset hc
    · intro h
      apply List.mem_filter.mpr
      refine ⟨?_, by decide⟩
      apply List.mem_map.mpr
      refine ⟨'|', ?_, by decide⟩
      exact mem_pyStrip_of_not_space (by decide) h

theorem mem_find_skill_matches_exact {skill_phrase : Str} {data : List Profile} {m : PMatch}
    (h : m ∈ find_skill_matches skill_phrase data false) :
    m.profile ∈ data ∧ ∃ s, m.detail = Detail.skill s ∧ s ∈ m.profile.skills_struct
      ∧ normalize s.name = normalize skill_phrase := by
  unfold find_skill_matches at h
  obtain ⟨p, hp, heq⟩ := List.mem_filterMap.mp h
  rcases hfind : p.skills_struct.find? _ with _ | s
  · rw [hfind] at heq
    exact absurd heq (by simp)
  · rw [hfind] at heq
    simp only [Option.map_some'] at heq
    have hm : m = ⟨p, Detail.skill s⟩ := by
      exact (Option.some.inj heq).symm
    subst hm
    have hpred := List.find?_some hfind
    simp only [Bool.false_and, Bool.or_false, beq_iff_eq] at hpred
    exact ⟨hp, s, rfl, List.mem_of_find?_eq_some hfind, hpred.symm⟩

/-- Claim C10: normalization retains the `'|'` delimiter, so for a phrase
containing `'|'` (two or more parts) the EXACT tier matches a skill only
when its normalized name equals the whole normalized phrase — which still
contains `'|'` — and never an individual part, whose normalization cannot
contain `'|'`. -/
theorem c10_exact_full_phrase_only (skill_phrase : Str) (hpipe : '|' ∈ skill_phrase) :
    1 < (pySplit '|' skill_phrase).length
    ∧ '|' ∈ normalize skill_phrase
    ∧ (∀ (data : List Profile), ∀ m ∈ find_skill_matches skill_phrase data false,
        ∃ s, m.detail = Detail.skill s ∧ normalize s.name = normalize skill_phrase)
    ∧ (∀ part ∈ pySplit '|' skill_phrase, normalize part ≠ normalize skill_phrase)
    ∧ (∀ part ∈ pySplit '|' skill_phrase, ∀ (data : List Profile),
        ∀ m ∈ find_skill_matches skill_phrase data false,
        ∀ s, m.detail = Detail.skill s → normalize s.name ≠ normalize part) := by
  have hparts : ∀ part ∈ pySplit '|' skill_phrase, normalize part ≠ normalize skill_phrase := by
    intro part hpart heq
    have hno : '|' ∉ part := mem_pySplit_not_sep part hpart
    have hno' : '|' ∉ normalize part := fun h => hno ((pipe_mem_normalize_iff part).mp h)
    rw [heq] at hno'
    exact hno' ((pipe_mem_normalize_iff skill_phrase).mpr hpipe)
  refine ⟨(one_lt_length_pySplit_iff '|' skill_phrase).mpr hpipe,
    (pipe_mem_normalize_iff skill_phrase).mpr hpipe, ?_, hparts, ?_⟩
  · intro data m hm
    obtain ⟨_, s, hds, _, hname⟩ := mem_find_skill_matches_exact hm
    exact ⟨s, hds, hname⟩
  · intro part hpart data m hm s hds hname
    obtain ⟨_, s', hds', _, hname'⟩ := mem_find_skill_matches_exact hm
    rw [hds] at hds'
    have : s = s' := by
      cases hds'
      rfl
    subst this
    exact hparts part hpart (hname ▸ hname')

/-- Claim C10 witness: the characterization applied at the concrete phrase
"big data|nlp" and a singleton corpus whose skill is named "big data". -/
theorem c10_witness :
    (1 < (pySplit '|' (str "big data|nlp")).length)
    ∧ (∀ part ∈ pySplit '|' (str "big data|nlp"), normalize part ≠ normalize (str "big data|nlp")) :=
  ⟨(c10_exact_full_phrase_only (str "big data|nlp") (by decide)).1,
    (c10_exact_full_phrase_only (str "big data|nlp") (by decide)).2.2.2.1⟩

theorem find_skill_matches_false_eq (skill_phrase : Str) (data : List Profile) :
    find_skill_matches skill_phrase data false =
      strat (fun prof =>
        (prof.skills_struct.find? (exactSkillTest skill_phrase)).map Detail.skill) data := by
  unfold find_skill_matches strat exactSkillTest
  simp only [Bool.false_and, Bool.or_false, Option.map_map, Function.comp_def]

theorem find_skill_matches_true_eq (skill_phrase : Str) (data : List Profile) :
    find_skill_matches skill_phrase data true =
      strat (fun prof =>
        (prof.skills_struct.find? (subSkillTest skill_phrase)).map Detail.skill) data := by
  unfold find_skill_matches strat subSkillTest
  simp only [Bool.true_and, Option.map_map, Function.comp_def]

theorem find_and_matches_eq (skill_parts : List Str) (data : List Profile) :
    find_and_matches skill_parts data =
      strat (fun prof =>
        (prof.skills_struct.find? (andSkillTest skill_parts)).map Detail.skill) data := by
  unfold find_and_matches strat andSkillTest
  simp only [Option.map_map, Function.comp_def]

theorem find_or_matches_eq (skill_parts : List Str) (data : List Profile) :
    find_or_matches skill_parts data =
      strat (fun prof =>
        (prof.skills_struct.find? (orSkillTest skill_parts)).map Detail.skill) data := by
  unfold find_or_matches strat orSkillTest
  simp only [Option.map_map, Function.comp_def]

theorem find_course_matches_eq (skill_phrase : Str) (data : List Profile) :
    find_course_matches skill_phrase data =
      strat (fun prof =>
        (prof.courses_struct.find? (courseTest skill_phrase)).map Detail.course) data := by
  unfold find_course_matches strat courseTest
  simp only [Option.map_map, Function.comp_def]

theorem mem_strat {g : Profile → Option Detail} {data : List Profile} {m : PMatch} :
    m ∈ strat g data ↔ m.profile ∈ data ∧ g m.profile = some m.detail := by
  unfold strat
  rw [List.mem_filterMap]
  constructor
  · rintro ⟨p, hp, heq⟩
    rcases hg : g p with _ | d
    · rw [hg] at heq
      exact absurd heq (by simp)
    · rw [hg] at heq
      simp only [Option.map_some'] at heq
      cases Option.some.inj heq
      exact ⟨hp, by rw [hg]⟩
  · rintro ⟨hp, hg⟩
    refine ⟨m.profile, hp, ?_⟩
    rw [hg]
    cases m
    rfl

theorem idsP_strat_sublist (g : Profile → Option Detail) (data : List Profile) :
    List.Sublist ((strat g data).map (fun m => m.profile.empID))
      (data.map Profile.empID) := by
  induction data with
  | nil => simp [strat]
  | cons p ps ih =>
    unfold strat at ih ⊢
    rw [List.filterMap_cons, List.map_cons]
    rcases g p with _ | d
    · exact List.Sublist.cons p.empID ih
    · simp only [Option.map_some', List.map_cons]
      exact List.Sublist.cons₂ p.empID ih

theorem id_mem_strat {g : Profile → Option Detail} {data : List Profile} {p : Profile}
    (hp : p ∈ data) (hg : (g p).isSome = true) :
    p.empID ∈ (strat g data).map (fun m => m.profile.empID) := by
  rcases hgd : g p with _ | d
  · rw [hgd] at hg
    exact absurd hg (by simp)
  · apply List.mem_map.mpr
    exact ⟨⟨p, d⟩, mem_strat.mpr ⟨hp, by rw [hgd]⟩, rfl⟩

theorem exists_of_id_mem_strat {g : Profile → Option Detail} {data : List Profile} {e : Str}
    (h : e ∈ (strat g data).map (fun m => m.profile.empID)) :
    ∃ q ∈ data, q.empID = e ∧ (g q).isSome = true := by
  obtain ⟨m, hm, hid⟩ := List.mem_map.mp h
  obtain ⟨hp, hg⟩ := mem_strat.mp hm
  exact ⟨m.profile, hp, hid, by rw [hg]; rfl⟩

theorem find?_map_isSome_iff {β : Type} {γ : Type} {pred : γ → Bool} {l : List γ}
    {f : γ → β} : ((l.find? pred).map f).isSome = true ↔ l.any pred = true := by
  rcases h : l.find? pred with _ | a
  · rw [List.find?_eq_none] at h
    simp only [Option.map_none', Option.isSome_none, List.any_eq_true]
    constructor
    · intro hfalse
      exact absurd hfalse (by simp)
    · rintro ⟨x, hx, hpx⟩
      exact absurd hpx (h x hx)
  · simp only [Option.map_some', Option.isSome_some, List.any_eq_true, true_iff]
    exact ⟨a, List.mem_of_find?_eq_some h, List.find?_some h⟩

theorem idsOf_map_tagged (l : List PMatch) (t : MatchType) :
    idsOf (l.map (fun pm => pm.tagged t)) = l.map (fun pm => pm.profile.empID) := by
  unfold idsOf PMatch.tagged
  rw [List.map_map]
  rfl

theorem mem_map_tagged {l : List PMatch} {t : MatchType} {m : Match} :
    m ∈ l.map (fun pm => pm.tagged t) ↔
      m.tag = t ∧ (⟨m.profile, m.detail⟩ : PMatch) ∈ l := by
  rw [List.mem_map]
  constructor
  · rintro ⟨pm, hpm, rfl⟩
    exact ⟨rfl, by cases pm; exact hpm⟩
  · rintro ⟨ht, hpm⟩
    refine ⟨⟨m.profile, m.detail⟩, hpm, ?_⟩
    cases m with
    | mk profile detail tag =>
      cases ht
      rfl

theorem contains_iff_mem {l : List Str} {e : Str} : l.contains e = true ↔ e ∈ l := by
  simp [List.contains]

theorem mem_addTier {acc new : List Match} {m : Match} :
    m ∈ addTier acc new ↔ m ∈ acc ∨ (m ∈ new ∧ m.profile.empID ∉ idsOf acc) := by
  unfold addTier
  rw [List.mem_append, List.mem_filter]
  simp [contains_iff_mem]

theorem mem_addTier_left {acc new : List Match} {m : Match} (h : m ∈ acc) :
    m ∈ addTier acc new :=
  mem_addTier.mpr (Or.inl h)

theorem mem_addTier_right {acc new : List Match} {m : Match} (h : m ∈ new)
    (hid : m.profile.empID ∉ idsOf acc) : m ∈ addTier acc new :=
  mem_addTier.mpr (Or.inr ⟨h, hid⟩)

theorem mem_idsOf {l : List Match} {e : Str} :
    e ∈ idsOf l ↔ ∃ m ∈ l, m.profile.empID = e := by
  unfold idsOf
  rw [List.mem_map]

theorem mem_idsOf_addTier {acc new : List Match} {e : Str} :
    e ∈ idsOf (addTier acc new) ↔ e ∈ idsOf acc ∨ e ∈ idsOf new := by
  unfold addTier idsOf
  rw [List.map_append, List.mem_append]
  constructor
  · rintro (h | h)
    · exact Or.inl h
    · obtain ⟨m, hm, hid⟩ := List.mem_map.mp h
      exact Or.inr (List.mem_map.mpr ⟨m, (List.mem_filter.mp hm).1, hid⟩)
  · rintro (h | h)
    · exact Or.inl h
    · by_cases hacc : e ∈ acc.map (fun m => m.profile.empID)
      · exact Or.inl hacc
      · obtain ⟨m, hm, hid⟩ := List.mem_map.mp h
        refine Or.inr (List.mem_map.mpr ⟨m, List.mem_filter.mpr ⟨hm, ?_⟩, hid⟩)
        simp only [Bool.not_eq_true', ← Bool.not_eq_true]
        intro hcon
        exact hacc (hid ▸ (show m.profile.empID ∈ idsOf acc from contains_iff_mem.mp hcon))

theorem nodup_idsOf_addTier {acc new : List Match} (h1 : (idsOf acc).Nodup)
    (h2 : (idsOf new).Nodup) : (idsOf (addTier acc new)).Nodup := by
  unfold addTier idsOf
  rw [List.map_append, List.nodup_append]
  refine ⟨h1, ((List.filter_sublist new).map _).nodup h2, ?_⟩
  intro e he1 he2
  obtain ⟨m, hm, hid⟩ := List.mem_map.mp he2
  have hfil := (List.mem_filter.mp hm).2
  rw [Bool.not_eq_eq_eq_not, Bool.not_true] at hfil
  have hmem : m.profile.empID ∈ idsOf acc := hid ▸ he1
  rw [← contains_iff_mem] at hmem
  rw [show idsOf acc = acc.map (fun m => m.profile.empID) from rfl] at hmem
  rw [hmem] at hfil
  exact Bool.noConfusion hfil

theorem top_matches_eq_multi (skill_phrase : Str) (data : List Profile)
    (hgt : ((pySplit '|' skill_phrase).map normalize).length > 1) :
    top_matches skill_phrase data =
      addTier (addTier (addTier (addTier
        ((find_skill_matches skill_phrase data false).map (fun m => m.tagged MatchType.exact))
        ((find_and_matches ((pySplit '|' skill_phrase).map normalize) data).map
          (fun m => m.tagged MatchType.conj)))
        ((find_or_matches ((pySplit '|' skill_phrase).map normalize) data).map
          (fun m => m.tagged MatchType.disj)))
        ((find_skill_matches skill_phrase data true).map (fun m => m.tagged MatchType.sub)))
        ((find_course_matches skill_phrase data).map (fun m => m.tagged MatchType.course)) := by
  simp only [top_matches]
  rw [if_pos hgt, if_pos hgt]

theorem top_matches_eq_single (skill_phrase : Str) (data : List Profile)
    (hle : ¬((pySplit '|' skill_phrase).map normalize).length > 1) :
    top_matches skill_phrase data =
      addTier (addTier
        ((find_skill_matches skill_phrase data false).map (fun m => m.tagged MatchType.exact))
        ((find_skill_matches skill_phrase data true).map (fun m => m.tagged MatchType.sub)))
        ((find_course_matches skill_phrase data).map (fun m => m.tagged MatchType.course)) := by
  simp only [top_matches]
  rw [if_neg hle, if_neg hle]

theorem tagged_strat_elim {g : Profile → Option Detail} {data : List Profile}
    {t : MatchType} {m : Match}
    (h : m ∈ (strat g data).map (fun pm => pm.tagged t)) :
    m.tag = t ∧ m.profile ∈ data ∧ (g m.profile).isSome = true := by
  obtain ⟨ht, hpm⟩ := mem_map_tagged.mp h
  obtain ⟨hp, hg⟩ := mem_strat.mp hpm
  exact ⟨ht, hp, by rw [hg]; rfl⟩

theorem id_mem_tagged_strat {g : Profile → Option Detail} {data : List Profile}
    {t : MatchType} {p : Profile} (hp : p ∈ data) (hg : (g p).isSome = true) :
    p.empID ∈ idsOf ((strat g data).map (fun pm => pm.tagged t)) := by
  rw [idsOf_map_tagged]
  exact id_mem_strat hp hg

theorem id_not_mem_tagged_strat {g : Profile → Option Detail} {data : List Profile}
    {t : MatchType} {p : Profile} (hnd : (data.map Profile.empID).Nodup)
    (hp : p ∈ data) (hg : ¬(g p).isSome = true) :
    p.empID ∉ idsOf ((strat g data).map (fun pm => pm.tagged t)) := by
  rw [idsOf_map_tagged]
  intro h
  obtain ⟨q, hq, hqe, hqs⟩ := exists_of_id_mem_strat h
  have heq : q = p := List.inj_on_of_nodup_map hnd hq hp hqe
  subst heq
  exact hg hqs

theorem nodup_idsOf_strat_tagged {g : Profile → Option Detail} {data : List Profile}
    {t : MatchType} (hnd : (data.map Profile.empID).Nodup) :
    (idsOf ((strat g data).map (fun pm => pm.tagged t))).Nodup := by
  rw [idsOf_map_tagged]
  exact (idsP_strat_sublist g data).nodup hnd

theorem nodup_idsOf_top_matches (skill_phrase : Str) (data : List Profile)
    (hnd : (data.map Profile.empID).Nodup) :
    (idsOf (top_matches skill_phrase data)).Nodup := by
  by_cases hgt : ((pySplit '|' skill_phrase).map normalize).length > 1
  · rw [top_matches_eq_multi skill_phrase data hgt, find_skill_matches_false_eq,
      find_skill_matches_true_eq, find_and_matches_eq, find_or_matches_eq,
      find_course_matches_eq]
    exact nodup_idsOf_addTier
      (nodup_idsOf_addTier
        (nodup_idsOf_addTier
          (nodup_idsOf_addTier (nodup_idsOf_strat_tagged hnd) (nodup_idsOf_strat_tagged hnd))
          (nodup_idsOf_strat_tagged hnd))
        (nodup_idsOf_strat_tagged hnd))
      (nodup_idsOf_strat_tagged hnd)
  · rw [top_matches_eq_single skill_phrase data hgt, find_skill_matches_false_eq,
      find_skill_matches_true_eq, find_course_matches_eq]
    exact nodup_idsOf_addTier
      (nodup_idsOf_addTier (nodup_idsOf_strat_tagged hnd) (nodup_idsOf_strat_tagged hnd))
      (nodup_idsOf_strat_tagged hnd)

theorem length_filter_id_le_one {l : List Match} (h : (idsOf l).Nodup) (e : Str) :
    (l.filter (fun m => m.profile.empID == e)).length ≤ 1 := by
  induction l with
  | nil => simp
  | cons m ms ih =>
    have hcons := h
    unfold idsOf at hcons
    rw [List.map_cons, List.nodup_cons] at hcons
    rcases hbeq : (m.profile.empID == e) with _ | _
    · rw [List.filter_cons_of_neg (by simp [hbeq])]
      exact ih hcons.2
    · rw [List.filter_cons_of_pos (by simp [hbeq])]
      have hnil : ms.filter (fun x => x.profile.empID == e) = [] := by
        apply List.filter_eq_nil_iff.mpr
        intro x hx hxe
        apply hcons.1
        rw [beq_iff_eq] at hbeq hxe
        rw [hbeq, ← hxe]
        exact List.mem_map.mpr ⟨x, hx, rfl⟩
      rw [hnil]
      simp

theorem mem_top_matches_tier (skill_phrase : Str) (data : List Profile) {m : Match}
    (hm : m ∈ top_matches skill_phrase data) :
    m.profile ∈ data ∧ tier_of skill_phrase m.profile = some m.tag := by
  by_cases hgt : ((pySplit '|' skill_phrase).map normalize).length > 1
  · rw [top_matches_eq_multi skill_phrase data hgt, find_skill_matches_false_eq,
      find_skill_matches_true_eq, find_and_matches_eq, find_or_matches_eq,
      find_course_matches_eq] at hm
    rcases mem_addTier.mp hm with hm4 | ⟨hmc, hidc⟩
    · rcases mem_addTier.mp hm4 with hm3 | ⟨hms, hids⟩
      · rcases mem_addTier.mp hm3 with hm2 | ⟨hmo, hido⟩
        · rcases mem_addTier.mp hm2 with hm1 | ⟨hma, hida⟩
          · obtain ⟨ht, hp, hg⟩ := tagged_strat_elim hm1
            simp only [find?_map_isSome_iff] at hg
            refine ⟨hp, ?_⟩
            unfold tier_of exact_pred
            rw [if_pos hg, ht]
          · obtain ⟨ht, hp, hg⟩ := tagged_strat_elim hma
            simp only [find?_map_isSome_iff] at hg
            have hnex : ¬m.profile.skills_struct.any (exactSkillTest skill_phrase) = true :=
              fun hex => hida (id_mem_tagged_strat hp
                (by simp only [find?_map_isSome_iff]; exact hex))
            refine ⟨hp, ?_⟩
            unfold tier_of exact_pred and_pred
            rw [if_neg hnex, if_pos ⟨hgt, hg⟩, ht]
        · rw [mem_idsOf_addTier] at hido
          push_neg at hido
          obtain ⟨hid1, hid2⟩ := hido
          obtain ⟨ht, hp, hg⟩ := tagged_strat_elim hmo
          simp only [find?_map_isSome_iff] at hg
          have hnex : ¬m.profile.skills_struct.any (exactSkillTest skill_phrase) = true :=
            fun hex => hid1 (id_mem_tagged_strat hp
              (by simp only [find?_map_isSome_iff]; exact hex))
          have hnand : ¬m.profile.skills_struct.any
              (andSkillTest ((pySplit '|' skill_phrase).map normalize)) = true :=
            fun ha => hid2 (id_mem_tagged_strat hp
              (by simp only [find?_map_isSome_iff]; exact ha))
          refine ⟨hp, ?_⟩
          unfold tier_of exact_pred and_pred or_pred
          rw [if_neg hnex, if_neg (fun hc => hnand hc.2), if_pos ⟨hgt, hg⟩, ht]
      · rw [mem_idsOf_addTier, mem_idsOf_addTier] at hids
        push_neg at hids
        obtain ⟨⟨hid1, hid2⟩, hid3⟩ := hids
        obtain ⟨ht, hp, hg⟩ := tagged_strat_elim hms
        simp only [find?_map_isSome_iff] at hg
        have hnex : ¬m.profile.skills_struct.any (exactSkillTest skill_phrase) = true :=
          fun hex => hid1 (id_mem_tagged_strat hp
            (by simp only [find?_map_isSome_iff]; exact hex))
        have hnand : ¬m.profile.skills_struct.any
            (andSkillTest ((pySplit '|' skill_phrase).map normalize)) = true :=
          fun ha => hid2 (id_mem_tagged_strat hp
            (by simp only [find?_map_isSome_iff]; exact ha))
        have hnor : ¬m.profile.skills_struct.any
            (orSkillTest ((pySplit '|' skill_phrase).map normalize)) = true :=
          fun ho => hid3 (id_mem_tagged_strat hp
            (by simp only [find?_map_isSome_iff]; exact ho))
        refine ⟨hp, ?_⟩
        unfold tier_of exact_pred and_pred or_pred sub_pred
        rw [if_neg hnex, if_neg (fun hc => hnand hc.2), if_neg (fun hc => hnor hc.2),
          if_pos hg, ht]
    · rw [mem_idsOf_addTier, mem_idsOf_addTier, mem_idsOf_addTier] at hidc
      push_neg at hidc
      obtain ⟨⟨⟨hid1, hid2⟩, hid3⟩, hid4⟩ := hidc
      obtain ⟨ht, hp, hg⟩ := tagged_strat_elim hmc
      simp only [find?_map_isSome_iff] at hg
      have hnex : ¬m.profile.skills_struct.any (exactSkillTest skill_phrase) = true :=
        fun hex => hid1 (id_mem_tagged_strat hp
          (by simp only [find?_map_isSome_iff]; exact hex))
      have hnand : ¬m.profile.skills_struct.any
          (andSkillTest ((pySplit '|' skill_phrase).map normalize)) = true :=
        fun ha => hid2 (id_mem_tagged_strat hp
          (by simp only [find?_map_isSome_iff]; exact ha))
      have hnor : ¬m.profile.skills_struct.any
          (orSkillTest ((pySplit '|' skill_phrase).map normalize)) = true :=
        fun ho => hid3 (id_mem_tagged_strat hp
          (by simp only [find?_map_isSome_iff]; exact ho))
      have hnsub : ¬m.profile.skills_struct.any (subSkillTest skill_phrase) = true :=
        fun hs => hid4 (id_mem_tagged_strat hp
          (by simp only [find?_map_isSome_iff]; exact hs))
      refine ⟨hp, ?_⟩
      unfold tier_of exact_pred and_pred or_pred sub_pred course_pred
      rw [if_neg hnex, if_neg (fun hc => hnand hc.2), if_neg (fun hc => hnor hc.2),
        if_neg hnsub, if_pos hg, ht]
  · rw [top_matches_eq_single skill_phrase data hgt, find_skill_matches_false_eq,
      find_skill_matches_true_eq, find_course_matches_eq] at hm
    rcases mem_addTier.mp hm with hm2 | ⟨hmc, hidc⟩
    · rcases mem_addTier.mp hm2 with hm1 | ⟨hms, hids⟩
      · obtain ⟨ht, hp, hg⟩ := tagged_strat_elim hm1
        simp only [find?_map_isSome_iff] at hg
        refine ⟨hp, ?_⟩
        unfold tier_of exact_pred
        rw [if_pos hg, ht]
      · obtain ⟨ht, hp, hg⟩ := tagged_strat_elim hms
        simp only [find?_map_isSome_iff] at hg
        have hnex : ¬m.profile.skills_struct.any (exactSkillTest skill_phrase) = true :=
          fun hex => hids (id_mem_tagged_strat hp
            (by simp only [find?_map_isSome_iff]; exact hex))
        refine ⟨hp, ?_⟩
        unfold tier_of exact_pred sub_pred
        rw [if_neg hnex, if_neg (fun hc => hgt hc.1), if_neg (fun hc => hgt hc.1),
          if_pos hg, ht]
    · rw [mem_idsOf_addTier] at hidc
      push_neg at hidc
      obtain ⟨hid1, hid2⟩ := hidc
      obtain ⟨ht, hp, hg⟩ := tagged_strat_elim hmc
      simp only [find?_map_isSome_iff] at hg
      have hnex : ¬m.profile.skills_struct.any (exactSkillTest skill_phrase) = true :=
        fun hex => hid1 (id_mem_tagged_strat hp
          (by simp only [find?_map_isSome_iff]; exact hex))
      have hnsub : ¬m.profile.skills_struct.any (subSkillTest skill_phrase) = true :=
        fun hs => hid2 (id_mem_tagged_strat hp
          (by simp only [find?_map_isSome_iff]; exact hs))
      refine ⟨hp, ?_⟩
      unfold tier_of exact_pred sub_pred course_pred
      rw [if_neg hnex, if_neg (fun hc => hgt hc.1), if_neg (fun hc => hgt hc.1),
        if_neg hnsub, if_pos hg, ht]

theorem tier_mem_top_matches (skill_phrase : Str) (data : List Profile)
    (hnd : (data.map Profile.empID).Nodup) {p : Profile} (hp : p ∈ data) {t : MatchType}
    (ht : tier_of skill_phrase p = some t) :
    ∃ m ∈ top_matches skill_phrase data, m.profile = p ∧ m.tag = t := by
  unfold tier_of exact_pred and_pred or_pred sub_pred course_pred at ht
  by_cases hgt : ((pySplit '|' skill_phrase).map normalize).length > 1
  · rw [top_matches_eq_multi skill_phrase data hgt, find_skill_matches_false_eq,
      find_skill_matches_true_eq, find_and_matches_eq, find_or_matches_eq,
      find_course_matches_eq]
    split_ifs at ht with h1 h2 h3 h4 h5
    · cases Option.some.inj ht
      have hs : ((p.skills_struct.find? (exactSkillTest skill_phrase)).map
          Detail.skill).isSome = true := by
        rw [find?_map_isSome_iff]
        exact h1
      obtain ⟨d, hd⟩ := Option.isSome_iff_exists.mp hs
      refine ⟨PMatch.tagged ⟨p, d⟩ MatchType.exact, ?_, rfl, rfl⟩
      apply mem_addTier_left
      apply mem_addTier_left
      apply mem_addTier_left
      apply mem_addTier_left
      exact mem_map_tagged.mpr ⟨rfl, mem_strat.mpr ⟨hp, hd⟩⟩
    · cases Option.some.inj ht
      have hs : ((p.skills_struct.find?
          (andSkillTest ((pySplit '|' skill_phrase).map normalize))).map
          Detail.skill).isSome = true := by
        rw [find?_map_isSome_iff]
        exact h2.2
      obtain ⟨d, hd⟩ := Option.isSome_iff_exists.mp hs
      refine ⟨PMatch.tagged ⟨p, d⟩ MatchType.conj, ?_, rfl, rfl⟩
      apply mem_addTier_left
      apply mem_addTier_left
      apply mem_addTier_left
      apply mem_addTier_right
      · exact mem_map_tagged.mpr ⟨rfl, mem_strat.mpr ⟨hp, hd⟩⟩
      · exact id_not_mem_tagged_strat hnd hp
          (fun hex => h1 (by simp only [find?_map_isSome_iff] at hex; exact hex))
    · cases Option.some.inj ht
      have hs : ((p.skills_struct.find?
          (orSkillTest ((pySplit '|' skill_phrase).map normalize))).map
          Detail.skill).isSome = true := by
        rw [find?_map_isSome_iff]
        exact h3.2
      obtain ⟨d, hd⟩ := Option.isSome_iff_exists.mp hs
      refine ⟨PMatch.tagged ⟨p, d⟩ MatchType.disj, ?_, rfl, rfl⟩
      apply mem_addTier_left
      apply mem_addTier_left
      apply mem_addTier_right
      · exact mem_map_tagged.mpr ⟨rfl, mem_strat.mpr ⟨hp, hd⟩⟩
      · rw [mem_idsOf_addTier]
        push_neg
        constructor
        · exact id_not_mem_tagged_strat hnd hp
            (fun hex => h1 (by simp only [find?_map_isSome_iff] at hex; exact hex))
        · exact id_not_mem_tagged_strat hnd hp
            (fun ha => h2 ⟨hgt, by simp only [find?_map_isSome_iff] at ha; exact ha⟩)
    · cases Option.some.inj ht
      have hs : ((p.skills_struct.find? (subSkillTest skill_phrase)).map
          Detail.skill).isSome = true := by
        rw [find?_map_isSome_iff]
        exact h4
      obtain ⟨d, hd⟩ := Option.isSome_iff_exists.mp hs
      refine ⟨PMatch.tagged ⟨p, d⟩ MatchType.sub, ?_, rfl, rfl⟩
      apply mem_addTier_left
      apply mem_addTier_right
      · exact mem_map_tagged.mpr ⟨rfl, mem_strat.mpr ⟨hp, hd⟩⟩
      · rw [mem_idsOf_addTier, mem_idsOf_addTier]
        push_neg
        refine ⟨⟨?_, ?_⟩, ?_⟩
        · exact id_not_mem_tagged_strat hnd hp
            (fun hex => h1 (by simp only [find?_map_isSome_iff] at hex; exact hex))
        · exact id_not_mem_tagged_strat hnd hp
            (fun ha => h2 ⟨hgt, by simp only [find?_map_isSome_iff] at ha; exact ha⟩)
        · exact id_not_mem_tagged_strat hnd hp
            (fun ho => h3 ⟨hgt, by simp only [find?_map_isSome_iff] at ho; exact ho⟩)
    · cases Option.some.inj ht
      have hs : ((p.courses_struct.find? (courseTest skill_phrase)).map
          Detail.course).isSome = true := by
        rw [find?_map_isSome_iff]
        exact h5
      obtain ⟨d, hd⟩ := Option.isSome_iff_exists.mp hs
      refine ⟨PMatch.tagged ⟨p, d⟩ MatchType.course, ?_, rfl, rfl⟩
      apply mem_addTier_right
      · exact mem_map_tagged.mpr ⟨rfl, mem_strat.mpr ⟨hp, hd⟩⟩
      · rw [mem_idsOf_addTier, mem_idsOf_addTier, mem_idsOf_addTier]
        push_neg
        refine ⟨⟨⟨?_, ?_⟩, ?_⟩, ?_⟩
        · exact id_not_mem_tagged_strat hnd hp
            (fun hex => h1 (by simp only [find?_map_isSome_iff] at hex; exact hex))
        · exact id_not_mem_tagged_strat hnd hp
            (fun ha => h2 ⟨hgt, by simp only [find?_map_isSome_iff] at ha; exact ha⟩)
        · exact id_not_mem_tagged_strat hnd hp
            (fun ho => h3 ⟨hgt, by simp only [find?_map_isSome_iff] at ho; exact ho⟩)
        · exact id_not_mem_tagged_strat hnd hp
            (fun hsu => h4 (by simp only [find?_map_isSome_iff] at hsu; exact hsu))
  · rw [top_matches_eq_single skill_phrase data hgt, find_skill_matches_false_eq,
      find_skill_matches_true_eq, find_course_matches_eq]
    split_ifs at ht with h1 h2 h3 h4 h5
    · cases Option.some.inj ht
      have hs : ((p.skills_struct.find? (exactSkillTest skill_phrase)).map
          Detail.skill).isSome = true := by
        rw [find?_map_isSome_iff]
        exact h1
      obtain ⟨d, hd⟩ := Option.isSome_iff_exists.mp hs
      refine ⟨PMatch.tagged ⟨p, d⟩ MatchType.exact, ?_, rfl, rfl⟩
      apply mem_addTier_left
      apply mem_addTier_left
      exact mem_map_tagged.mpr ⟨rfl, mem_strat.mpr ⟨hp, hd⟩⟩
    · exact absurd h2.1 hgt
    · exact absurd h3.1 hgt
    · cases Option.some.inj ht
      have hs : ((p.skills_struct.find? (subSkillTest skill_phrase)).map
          Detail.skill).isSome = true := by
        rw [find?_map_isSome_iff]
        exact h4
      obtain ⟨d, hd⟩ := Option.isSome_iff_exists.mp hs
      refine ⟨PMatch.tagged ⟨p, d⟩ MatchType.sub, ?_, rfl, rfl⟩
      apply mem_addTier_left
      apply mem_addTier_right
      · exact mem_map_tagged.mpr ⟨rfl, mem_strat.mpr ⟨hp, hd⟩⟩
      · exact id_not_mem_tagged_strat hnd hp
          (fun hex => h1 (by simp only [find?_map_isSome_iff] at hex; exact hex))
    · cases Option.some.inj ht
      have hs : ((p.courses_struct.find? (courseTest skill_phrase)).map
          Detail.course).isSome = true := by
        rw [find?_map_isSome_iff]
        exact h5
      obtain ⟨d, hd⟩ := Option.isSome_iff_exists.mp hs
      refine ⟨PMatch.tagged ⟨p, d⟩ MatchType.course, ?_, rfl, rfl⟩
      apply mem_addTier_right
      · exact mem_map_tagged.mpr ⟨rfl, mem_strat.mpr ⟨hp, hd⟩⟩
      · rw [mem_idsOf_addTier]
        push_neg
        constructor
        · exact id_not_mem_tagged_strat hnd hp
            (fun hex => h1 (by simp only [find?_map_isSome_iff] at hex; exact hex))
        · exact id_not_mem_tagged_strat hnd hp
            (fun hsu => h4 (by simp only [find?_map_isSome_iff] at hsu; exact hsu))

/-- Claim C4: with pairwise-distinct employee IDs, each profile appears at
most once in the merged list across all symbolic tiers, every entry is
tagged with the highest-priority applicable tier that matches its profile
(EXACT > AND > OR > PARTIAL > COURSE), every tier-matched profile does
appear, and a profile with an exact skill hit is tagged EXACT — hence never
PARTIAL. -/
theorem c4_merge_dedup_and_precedence (skill_phrase : Str) (data : List Profile)
    (hnd : (data.map Profile.empID).Nodup) :
    (∀ e : Str, ((top_matches skill_phrase data).filter
        (fun m => m.profile.empID == e)).length ≤ 1)
    ∧ (∀ m ∈ top_matches skill_phrase data,
        m.profile ∈ data ∧ tier_of skill_phrase m.profile = some m.tag)
    ∧ (∀ p ∈ data, ∀ t : MatchType, tier_of skill_phrase p = some t →
        ∃ m ∈ top_matches skill_phrase data, m.profile = p ∧ m.tag = t)
    ∧ (∀ p ∈ data, exact_pred skill_phrase p = true →
        (∃ m ∈ top_matches skill_phrase data, m.profile = p ∧ m.tag = MatchType.exact)
        ∧ (∀ m ∈ top_matches skill_phrase data, m.profile = p →
            m.tag = MatchType.exact)) := by
  refine ⟨fun e => length_filter_id_le_one (nodup_idsOf_top_matches skill_phrase data hnd) e,
    fun m hm => mem_top_matches_tier skill_phrase data hm,
    fun p hp t ht => tier_mem_top_matches skill_phrase data hnd hp ht, ?_⟩
  intro p hp hex
  have htier : tier_of skill_phrase p = some MatchType.exact := by
    unfold tier_of
    rw [if_pos hex]
  refine ⟨tier_mem_top_matches skill_phrase data hnd hp htier, ?_⟩
  intro m hm hmp
  have h2 := (mem_top_matches_tier skill_phrase data hm).2
  rw [hmp, htier] at h2
  exact (Option.some.inj h2).symm

/-- Claim C4 witness: for phrase "big data" and the singleton corpus holding
skill "Big Data", the profile appears tagged EXACT. -/
theorem c4_witness :
    ∃ m ∈ top_matches (str "big data") [c4_p1], m.profile = c4_p1 ∧ m.tag = MatchType.exact :=
  ((c4_merge_dedup_and_precedence (str "big data") [c4_p1] (by decide)).2.2.2 c4_p1
    (by decide) (by decide)).1

theorem mem_skill_strat_iff (pred : Skill → Bool) (data : List Profile) (p : Profile)
    (hp : p ∈ data) :
    (∃ d, (⟨p, d⟩ : PMatch) ∈
        strat (fun prof => (prof.skills_struct.find? pred).map Detail.skill) data) ↔
      p.skills_struct.any pred = true := by
  constructor
  · rintro ⟨d, hd⟩
    obtain ⟨_, hg⟩ := mem_strat.mp hd
    have hs : ((p.skills_struct.find? pred).map Detail.skill).isSome = true := by
      rw [hg]
      rfl
    rwa [find?_map_isSome_iff] at hs
  · intro hany
    have hsome : ((p.skills_struct.find? pred).map Detail.skill).isSome = true := by
      rw [find?_map_isSome_iff]
      exact hany
    obtain ⟨d, hd⟩ := Option.isSome_iff_exists.mp hsome
    exact ⟨d, mem_strat.mpr ⟨hp, hd⟩⟩

theorem skill_strat_first_iff (pred : Skill → Bool) (data : List Profile) (p : Profile)
    (s : Skill) (hp : p ∈ data) :
    ((⟨p, Detail.skill s⟩ : PMatch) ∈
        strat (fun prof => (prof.skills_struct.find? pred).map Detail.skill) data) ↔
      p.skills_struct.find? pred = some s := by
  rw [mem_strat]
  constructor
  · rintro ⟨_, hg⟩
    rcases hf : p.skills_struct.find? pred with _ | s'
    · rw [hf] at hg
      exact absurd hg (by simp)
    · rw [hf] at hg
      simp only [Option.map_some'] at hg
      rw [Detail.skill.inj (Option.some.inj hg)]
  · intro hf
    refine ⟨hp, ?_⟩
    rw [hf]
    rfl

/-- Claim C8: the conjunctive and disjunctive tiers run only for multi-part
phrases (a single-part phrase never yields an `and`- or `or`-tagged match);
AND hits a profile exactly when some skill's normalized name contains every
part, recording the first such skill; OR when some skill's normalized name
contains at least one part; and on the claim's example parts
`["nlp","bigdata"]` the skill "NLP-BigData-Engineering" is an AND match
while a profile with only "NLP Basics" is an OR match but not an AND match. -/
theorem c8_and_or_tiers :
    (∀ (skill_phrase : Str) (data : List Profile),
      ¬((pySplit '|' skill_phrase).map normalize).length > 1 →
      ∀ m ∈ top_matches skill_phrase data,
        m.tag ≠ MatchType.conj ∧ m.tag ≠ MatchType.disj)
    ∧ (∀ (skill_parts : List Str) (data : List Profile), ∀ p ∈ data,
        ((∃ d, (⟨p, d⟩ : PMatch) ∈ find_and_matches skill_parts data) ↔
          ∃ s ∈ p.skills_struct, ∀ part ∈ skill_parts,
            isSub part (normalize s.name) = true))
    ∧ (∀ (skill_parts : List Str) (data : List Profile), ∀ p ∈ data, ∀ s : Skill,
        ((⟨p, Detail.skill s⟩ : PMatch) ∈ find_and_matches skill_parts data ↔
          p.skills_struct.find? (andSkillTest skill_parts) = some s))
    ∧ (∀ (skill_parts : List Str) (data : List Profile), ∀ p ∈ data,
        ((∃ d, (⟨p, d⟩ : PMatch) ∈ find_or_matches skill_parts data) ↔
          ∃ s ∈ p.skills_struct, ∃ part ∈ skill_parts,
            isSub part (normalize s.name) = true))
    ∧ (∀ (skill_parts : List Str) (data : List Profile), ∀ p ∈ data, ∀ s : Skill,
        ((⟨p, Detail.skill s⟩ : PMatch) ∈ find_or_matches skill_parts data ↔
          p.skills_struct.find? (orSkillTest skill_parts) = some s))
    ∧ (∃ d, (⟨c8_pA, d⟩ : PMatch) ∈ find_and_matches c8_parts [c8_pA, c8_pB])
    ∧ (∃ d, (⟨c8_pB, d⟩ : PMatch) ∈ find_or_matches c8_parts [c8_pA, c8_pB])
    ∧ ¬(∃ d, (⟨c8_pB, d⟩ : PMatch) ∈ find_and_matches c8_parts [c8_pA, c8_pB]) := by
  have handm : ∀ (skill_parts : List Str) (data : List Profile), ∀ p ∈ data,
      ((∃ d, (⟨p, d⟩ : PMatch) ∈ find_and_matches skill_parts data) ↔
        ∃ s ∈ p.skills_struct, ∀ part ∈ skill_parts,
          isSub part (normalize s.name) = true) := by
    intro skill_parts data p hp
    rw [find_and_matches_eq, mem_skill_strat_iff _ data p hp, List.any_eq_true]
    unfold andSkillTest
    constructor
    · rintro ⟨s, hs, hall⟩
      rw [List.all_eq_true] at hall
      exact ⟨s, hs, hall⟩
    · rintro ⟨s, hs, hall⟩
      refine ⟨s, hs, ?_⟩
      rw [List.all_eq_true]
      exact hall
  have horm : ∀ (skill_parts : List Str) (data : List Profile), ∀ p ∈ data,
      ((∃ d, (⟨p, d⟩ : PMatch) ∈ find_or_matches skill_parts data) ↔
        ∃ s ∈ p.skills_struct, ∃ part ∈ skill_parts,
          isSub part (normalize s.name) = true) := by
    intro skill_parts data p hp
    rw [find_or_matches_eq, mem_skill_strat_iff _ data p hp, List.any_eq_true]
    unfold orSkillTest
    constructor
    · rintro ⟨s, hs, hany⟩
      rw [List.any_eq_true] at hany
      exact ⟨s, hs, hany⟩
    · rintro ⟨s, hs, hany⟩
      refine ⟨s, hs, ?_⟩
      rw [List.any_eq_true]
      exact hany
  refine ⟨?_, handm, ?_, horm, ?_, ?_, ?_, ?_⟩
  · intro skill_phrase data hle m hm
    have h2 := (mem_top_matches_tier skill_phrase data hm).2
    constructor
    · intro htag
      rw [htag] at h2
      unfold tier_of at h2
      split_ifs at h2 with hc1 hc2 hc3 hc4 hc5
      · exact absurd h2 (by simp)
      · exact absurd hc2.1 hle
      · exact absurd h2 (by simp)
      · exact absurd h2 (by simp)
      · exact absurd h2 (by simp)
    · intro htag
      rw [htag] at h2
      unfold tier_of at h2
      split_ifs at h2 with hc1 hc2 hc3 hc4 hc5
      · exact absurd h2 (by simp)
      · exact absurd h2 (by simp)
      · exact absurd hc3.1 hle
      · exact absurd h2 (by simp)
      · exact absurd h2 (by simp)
  · intro skill_parts data p hp s
    rw [find_and_matches_eq]
    exact skill_strat_first_iff (andSkillTest skill_parts) data p s hp
  · intro skill_parts data p hp s
    rw [find_or_matches_eq]
    exact skill_strat_first_iff (orSkillTest skill_parts) data p s hp
  · exact ⟨Detail.skill ⟨str "NLP-BigData-Engineering", str "", str "", str "", 0⟩,
      by decide⟩
  · exact ⟨Detail.skill ⟨str "NLP Basics", str "", str "", str "", 0⟩, by decide⟩
  · intro hex
    have hiff := handm c8_parts [c8_pA, c8_pB] c8_pB (by decide)
    have := hiff.mp hex
    revert this
    decide

/-- Claim C8 witness: the AND characterization applied at the example parts
and corpus; the combined-skill profile has a skill containing both parts. -/
theorem c8_witness :
    (∃ d, (⟨c8_pA, d⟩ : PMatch) ∈ find_and_matches c8_parts [c8_pA, c8_pB]) ↔
      ∃ s ∈ c8_pA.skills_struct, ∀ part ∈ c8_parts,
        isSub part (normalize s.name) = true :=
  c8_and_or_tiers.2.1 c8_parts [c8_pA, c8_pB] c8_pA (by decide)

theorem keyLeP_refl (a : SortKey) : keyLeP a a := by
  unfold keyLeP
  omega

theorem keyLeP_trans {a b c : SortKey} (h1 : keyLeP a b) (h2 : keyLeP b c) : keyLeP a c := by
  unfold keyLeP at h1 h2 ⊢
  omega

theorem keyLeP_total (a b : SortKey) : keyLeP a b ∨ keyLeP b a := by
  unfold keyLeP
  omega

theorem pairLe_total (a b : SortKey × Match) : pairLe a b = true ∨ pairLe b a = true := by
  unfold pairLe keyLe
  rcases keyLeP_total a.1 b.1 with h | h
  · exact Or.inl (decide_eq_true h)
  · exact Or.inr (decide_eq_true h)

theorem pairLe_trans (a b c : SortKey × Match) (h1 : pairLe a b = true)
    (h2 : pairLe b c = true) : pairLe a c = true := by
  unfold pairLe keyLe at h1 h2 ⊢
  exact decide_eq_true (keyLeP_trans (of_decide_eq_true h1) (of_decide_eq_true h2))

theorem sortInsert_perm (le : α → α → Bool) (x : α) (l : List α) :
    (sortInsert le x l).Perm (x :: l) := by
  induction l with
  | nil => exact List.Perm.refl _
  | cons y ys ih =>
    unfold sortInsert
    split
    · exact List.Perm.refl _
    · exact List.Perm.trans ((List.perm_cons y).mpr ih) (List.Perm.swap x y ys)

theorem sortedBy_perm (le : α → α → Bool) (l : List α) : (sortedBy le l).Perm l := by
  induction l with
  | nil => exact List.Perm.refl _
  | cons x xs ih =>
    unfold sortedBy
    exact (sortInsert_perm le x (sortedBy le xs)).trans ((List.perm_cons x).mpr ih)

theorem pairwise_sortInsert (le : α → α → Bool)
    (htot : ∀ a b, le a b = true ∨ le b a = true)
    (htrans : ∀ a b c, le a b = true → le b c = true → le a c = true)
    (x : α) (l : List α) (hl : List.Pairwise (fun a b => le a b = true) l) :
    List.Pairwise (fun a b => le a b = true) (sortInsert le x l) := by
  induction l with
  | nil => simp [sortInsert]
  | cons y ys ih =>
    unfold sortInsert
    obtain ⟨hy, hys⟩ := List.pairwise_cons.mp hl
    rcases hxy : le x y with _ | _
    · rw [if_neg (by simp)]
      apply List.pairwise_cons.mpr
      constructor
      · intro z hz
        have hz' := (sortInsert_perm le x ys).mem_iff.mp hz
        rcases List.mem_cons.mp hz' with heq | hz''
        · subst heq
          rcases htot y z with h | h
          · exact h
          · rw [hxy] at h
            exact absurd h (by simp)
        · exact hy z hz''
      · exact ih hys
    · rw [if_pos rfl]
      apply List.pairwise_cons.mpr
      constructor
      · intro z hz
        rcases List.mem_cons.mp hz with rfl | hz'
        · exact hxy
        · exact htrans x y z hxy (hy z hz')
      · exact hl

theorem pairwise_sortedBy (le : α → α → Bool)
    (htot : ∀ a b, le a b = true ∨ le b a = true)
    (htrans : ∀ a b c, le a b = true → le b c = true → le a c = true)
    (l : List α) :
    List.Pairwise (fun a b => le a b = true) (sortedBy le l) := by
  induction l with
  | nil => exact List.Pairwise.nil
  | cons x xs ih => exact pairwise_sortInsert le htot htrans x _ ih

theorem decorate_some {l : List Match} {ps : List (SortKey × Match)}
    (h : decorate l = some ps) :
    ps.map Prod.snd = l ∧ ∀ pr ∈ ps, skill_sort_key pr.2 = some pr.1 := by
  induction l generalizing ps with
  | nil =>
    unfold decorate at h
    cases Option.some.inj h
    simp
  | cons m rest ih =>
    unfold decorate at h
    rcases hk : skill_sort_key m with _ | k <;> rw [hk] at h
    · exact absurd h (by simp)
    · rcases hd : decorate rest with _ | ps' <;> rw [hd] at h
      · exact absurd h (by simp)
      · cases Option.some.inj h
        obtain ⟨h1, h2⟩ := ih hd
        refine ⟨by simp [h1], ?_⟩
        intro pr hpr
        rcases List.mem_cons.mp hpr with rfl | hpr'
        · exact hk
        · exact h2 pr hpr'

theorem matchKeyLe_refl (m : Match) : matchKeyLe m m := by
  intro ka kb hka hkb
  rw [hka] at hkb
  rw [Option.some.inj hkb]
  exact keyLeP_refl kb

theorem sortByKey_some_perm {l s : List Match} (h : sortByKey l = some s) : s.Perm l := by
  unfold sortByKey at h
  rcases hd : decorate l with _ | pairs <;> rw [hd] at h
  · exact absurd h (by simp)
  · cases Option.some.inj h
    obtain ⟨h1, _⟩ := decorate_some hd
    have hperm : (sortedBy pairLe pairs).Perm pairs := sortedBy_perm pairLe pairs
    have := hperm.map Prod.snd
    rwa [h1] at this

theorem sortByKey_some_keys {l s : List Match} (h : sortByKey l = some s) :
    (∀ m ∈ s, (skill_sort_key m).isSome = true) ∧ List.Pairwise matchKeyLe s := by
  unfold sortByKey at h
  rcases hd : decorate l with _ | pairs <;> rw [hd] at h
  · exact absurd h (by simp)
  · cases Option.some.inj h
    obtain ⟨h1, h2⟩ := decorate_some hd
    have hperm : (sortedBy pairLe pairs).Perm pairs := sortedBy_perm pairLe pairs
    have hkeys : ∀ pr ∈ sortedBy pairLe pairs, skill_sort_key pr.2 = some pr.1 :=
      fun pr hpr => h2 pr (hperm.subset hpr)
    constructor
    · intro m hm
      obtain ⟨pr, hpr, hpr2⟩ := List.mem_map.mp hm
      rw [← hpr2, hkeys pr hpr]
      rfl
    · have hpw : List.Pairwise (fun a b => pairLe a b = true) (sortedBy pairLe pairs) :=
        pairwise_sortedBy pairLe pairLe_total pairLe_trans pairs
      rw [List.pairwise_map]
      apply hpw.imp_of_mem
      intro a b ha hb hab
      intro ka kb hka hkb
      rw [hkeys a ha] at hka
      rw [hkeys b hb] at hkb
      cases Option.some.inj hka
      cases Option.some.inj hkb
      exact of_decide_eq_true hab

theorem mem_of_head? {l : List α} {a : α} (h : l.head? = some a) : a ∈ l := by
  cases l with
  | nil => exact absurd h (by simp)
  | cons x xs =>
    rw [show (x :: xs).head? = some x from rfl] at h
    cases Option.some.inj h
    exact List.mem_cons_self _ _

theorem head_min_of_pairwise {s : List Match} (hp : List.Pairwise matchKeyLe s)
    {b : Match} (hb : s.head? = some b) : ∀ m ∈ s, matchKeyLe b m := by
  cases s with
  | nil => exact absurd hb (by simp)
  | cons x xs =>
    rw [show (x :: xs).head? = some x from rfl] at hb
    cases Option.some.inj hb
    intro m hm
    rcases List.mem_cons.mp hm with rfl | hm'
    · exact matchKeyLe_refl m
    · exact (List.pairwise_cons.mp hp).1 m hm'

/-- Claim C6: the sort key is the ascending lexicographic tuple
`(-experienceMonths, isCurrent==YES ? -1 : 0, isPrimary==YES ? 1 : 0,
-proficiencyRank)` with EXPERT=4, PROFICIENT=3, COMPETENT=2, BEGINNER=1,
absent=0 (proved as refinement against `spec_sort_key`, written from the
claim, for canonically-cased field values); experience dominates every
later component, so the 36-month non-current exact match sorts strictly
before the 12-month current one; and at equal experience and current-flag a
non-primary skill sorts strictly before a primary one. -/
theorem c6_sort_key_tuple :
    (∀ (p : Profile) (dt : MatchType) (s : Skill),
        s.isCurrent ∈ [str "YES", str "NO", str ""] →
        s.isPrimary ∈ [str "YES", str "NO", str ""] →
        s.proficiency ∈ [str "EXPERT", str "PROFICIENT", str "COMPETENT",
          str "BEGINNER", str ""] →
        skill_sort_key ⟨p, Detail.skill s, dt⟩ = some (spec_sort_key s))
    ∧ (∀ (p1 p2 : Profile) (t1 t2 : MatchType) (s1 s2 : Skill) (k1 k2 : SortKey),
        skill_sort_key ⟨p1, Detail.skill s1, t1⟩ = some k1 →
        skill_sort_key ⟨p2, Detail.skill s2, t2⟩ = some k2 →
        s2.experienceProjectMths < s1.experienceProjectMths →
        keyLtP k1 k2)
    ∧ (∀ (p1 p2 : Profile) (t1 t2 : MatchType) (s1 s2 : Skill) (k1 k2 : SortKey),
        skill_sort_key ⟨p1, Detail.skill s1, t1⟩ = some k1 →
        skill_sort_key ⟨p2, Detail.skill s2, t2⟩ = some k2 →
        s1.experienceProjectMths = s2.experienceProjectMths →
        (s1.isCurrent.map pyUpper = str "YES" ↔ s2.isCurrent.map pyUpper = str "YES") →
        ¬s1.isPrimary.map pyUpper = str "YES" →
        s2.isPrimary.map pyUpper = str "YES" →
        keyLtP k1 k2)
    ∧ (∀ k36 k12 : SortKey,
        skill_sort_key ⟨c6_p, Detail.skill c6_s36, MatchType.exact⟩ = some k36 →
        skill_sort_key ⟨c6_p, Detail.skill c6_s12, MatchType.exact⟩ = some k12 →
        keyLtP k36 k12)
    ∧ proficiency_order (str "EXPERT") = 4
    ∧ proficiency_order (str "PROFICIENT") = 3
    ∧ proficiency_order (str "COMPETENT") = 2
    ∧ proficiency_order (str "BEGINNER") = 1
    ∧ proficiency_order (str "") = 0 := by
  refine ⟨?_, ?_, ?_, ?_, by decide, by decide, by decide, by decide, by decide⟩
  · intro p dt s hcur hprim hprof
    obtain ⟨nm, prof, prim, cur, exp⟩ := s
    simp only [List.mem_cons, List.not_mem_nil, or_false] at hcur hprim hprof
    rcases hcur with rfl | rfl | rfl <;> rcases hprim with rfl | rfl | rfl <;>
      rcases hprof with rfl | rfl | rfl | rfl | rfl <;> rfl
  · intro p1 p2 t1 t2 s1 s2 k1 k2 h1 h2 hexp
    unfold skill_sort_key at h1 h2
    cases Option.some.inj h1
    cases Option.some.inj h2
    left
    show -(s1.experienceProjectMths : Int) < -(s2.experienceProjectMths : Int)
    omega
  · intro p1 p2 t1 t2 s1 s2 k1 k2 h1 h2 hexp hcur hnp1 hp2
    unfold skill_sort_key at h1 h2
    cases Option.some.inj h1
    cases Option.some.inj h2
    refine Or.inr ⟨?_, Or.inr ⟨?_, Or.inl ?_⟩⟩
    · show -(s1.experienceProjectMths : Int) = -(s2.experienceProjectMths : Int)
      omega
    · show (if s1.isCurrent.map pyUpper = str "YES" then (-1 : Int) else 0) =
        (if s2.isCurrent.map pyUpper = str "YES" then (-1 : Int) else 0)
      by_cases hc : s1.isCurrent.map pyUpper = str "YES"
      · rw [if_pos hc, if_pos (hcur.mp hc)]
      · rw [if_neg hc, if_neg (fun h => hc (hcur.mpr h))]
    · show (if s1.isPrimary.map pyUpper = str "YES" then (1 : Int) else 0) <
        (if s2.isPrimary.map pyUpper = str "YES" then (1 : Int) else 0)
      rw [if_neg hnp1, if_pos hp2]
      omega
  · intro k36 k12 h1 h2
    rw [show skill_sort_key ⟨c6_p, Detail.skill c6_s36, MatchType.exact⟩ =
      some ⟨-36, 0, 0, 0⟩ from rfl] at h1
    cases Option.some.inj h1
    rw [show skill_sort_key ⟨c6_p, Detail.skill c6_s12, MatchType.exact⟩ =
      some ⟨-12, -1, 0, 0⟩ from rfl] at h2
    cases Option.some.inj h2
    decide

/-- Claim C6 witness: the dominance conjunct applied at the spec's concrete
36-month/12-month example keys. -/
theorem c6_witness : keyLtP ⟨-36, 0, 0, 0⟩ ⟨-12, -1, 0, 0⟩ :=
  c6_sort_key_tuple.2.2.2.1 ⟨-36, 0, 0, 0⟩ ⟨-12, -1, 0, 0⟩ rfl rfl

theorem final_matches_spec {tm fm : List Match} (h : final_matches tm = some fm) :
    ∃ ns, sortByKey (tm.filter (fun m =>
        !(m.tag == MatchType.exact || m.tag == MatchType.conj))) = some ns
      ∧ ((∃ se be, sortByKey (tm.filter (fun m => m.tag == MatchType.exact)) = some se
            ∧ se.head? = some be ∧ fm = be :: ns.take 2)
         ∨ (∃ se, sortByKey (tm.filter (fun m => m.tag == MatchType.exact)) = some se
             ∧ se.head? = none
             ∧ ((∃ sa ba, sortByKey (tm.filter (fun m => m.tag == MatchType.conj)) = some sa
                  ∧ sa.head? = some ba ∧ fm = ba :: ns.take 2)
                ∨ (∃ sa, sortByKey (tm.filter (fun m => m.tag == MatchType.conj)) = some sa
                    ∧ sa.head? = none ∧ fm = ns.take 2)))) := by
  unfold final_matches at h
  split at h
  · exact absurd h (by simp)
  · rename_i se hse
    split at h
    · rename_i be hbe
      rcases hne : sortByKey (tm.filter (fun m =>
          !(m.tag == MatchType.exact || m.tag == MatchType.conj))) with _ | ns <;>
        rw [hne] at h
      · exact absurd h (by simp)
      · simp only [Option.map_some'] at h
        cases Option.some.inj h
        exact ⟨ns, rfl, Or.inl ⟨se, be, hse, hbe, rfl⟩⟩
    · rename_i hbe
      split at h
      · exact absurd h (by simp)
      · rename_i sa hsa
        rcases hne : sortByKey (tm.filter (fun m =>
            !(m.tag == MatchType.exact || m.tag == MatchType.conj))) with _ | ns <;>
          rw [hne] at h
        · exact absurd h (by simp)
        · simp only [Option.map_some'] at h
          cases Option.some.inj h
          refine ⟨ns, rfl, Or.inr ⟨se, hse, hbe, ?_⟩⟩
          rcases hba : sa.head? with _ | ba
          · exact Or.inr ⟨sa, hsa, hba, rfl⟩
          · exact Or.inl ⟨sa, ba, hsa, hba, rfl⟩

/-- Claim C5: whenever the ranker completes (its sorts hit no course match,
see C1) and corpus IDs are pairwise distinct, the final list is the
two-phase selection: at most 3 entries, no profile identity twice, every
entry drawn from the accumulated matches; it decomposes into an optional
head — the sort-key-minimal EXACT match, or, when no EXACT exists, the
sort-key-minimal AND match — followed by the first two of the remaining
non-EXACT/non-AND matches in sort-key order. -/
theorem c5_two_phase_selection (skill_phrase : Str) (data : List Profile)
    (fm : List Match) (hnd : (data.map Profile.empID).Nodup)
    (hfm : final_matches (top_matches skill_phrase data) = some fm) :
    fm.length ≤ 3
    ∧ (fm.map (fun m => m.profile.empID)).Nodup
    ∧ (∀ m ∈ fm, m ∈ top_matches skill_phrase data)
    ∧ (∃ headPart sNE,
        fm = headPart ++ sNE.take 2
        ∧ sNE.Perm ((top_matches skill_phrase data).filter
            (fun m => !(m.tag == MatchType.exact || m.tag == MatchType.conj)))
        ∧ List.Pairwise matchKeyLe sNE
        ∧ ((headPart = []
              ∧ (∀ m ∈ top_matches skill_phrase data,
                  m.tag ≠ MatchType.exact ∧ m.tag ≠ MatchType.conj))
           ∨ (∃ b, headPart = [b] ∧ b ∈ top_matches skill_phrase data
               ∧ ((b.tag = MatchType.exact
                    ∧ (∀ m ∈ top_matches skill_phrase data,
                        m.tag = MatchType.exact → matchKeyLe b m))
                  ∨ (b.tag = MatchType.conj
                      ∧ (∀ m ∈ top_matches skill_phrase data, m.tag ≠ MatchType.exact)
                      ∧ (∀ m ∈ top_matches skill_phrase data,
                          m.tag = MatchType.conj → matchKeyLe b m)))))) := by
  set tm := top_matches skill_phrase data with htm
  have hidn : (idsOf tm).Nodup := by
    rw [htm]
    exact nodup_idsOf_top_matches skill_phrase data hnd
  have hinj : ∀ m1 ∈ tm, ∀ m2 ∈ tm, m1.profile.empID = m2.profile.empID → m1 = m2 := by
    intro m1 h1 m2 h2 he
    exact List.inj_on_of_nodup_map hidn h1 h2 he
  obtain ⟨ns, hne, hcases⟩ := final_matches_spec hfm
  have hperm_ns : ns.Perm (tm.filter (fun m =>
      !(m.tag == MatchType.exact || m.tag == MatchType.conj))) := sortByKey_some_perm hne
  have hpw_ns : List.Pairwise matchKeyLe ns := (sortByKey_some_keys hne).2
  have hns_tm : ∀ m ∈ ns, m ∈ tm ∧ m.tag ≠ MatchType.exact ∧ m.tag ≠ MatchType.conj := by
    intro m hm
    obtain ⟨h1, h2⟩ := List.mem_filter.mp (hperm_ns.subset hm)
    rw [Bool.not_eq_eq_eq_not, Bool.not_true, Bool.or_eq_false_iff] at h2
    obtain ⟨h2e, h2c⟩ := h2
    exact ⟨h1, fun hx => by rw [hx] at h2e; exact absurd h2e (by simp),
      fun hx => by rw [hx] at h2c; exact absurd h2c (by simp)⟩
  have hidn' : (tm.map (fun m => m.profile.empID)).Nodup := hidn
  have hnd_take : ((ns.take 2).map (fun m => m.profile.empID)).Nodup := by
    have h1 : ((tm.filter (fun m =>
        !(m.tag == MatchType.exact || m.tag == MatchType.conj))).map
        (fun m => m.profile.empID)).Nodup :=
      ((List.filter_sublist tm).map (fun m => m.profile.empID)).nodup hidn'
    have h2 : (ns.map (fun m => m.profile.empID)).Nodup :=
      ((hperm_ns.map (fun m => m.profile.empID)).nodup_iff).mpr h1
    exact ((List.take_sublist 2 ns).map (fun m => m.profile.empID)).nodup h2
  have htake_le : (ns.take 2).length ≤ 2 := by
    rw [List.length_take]
    omega
  rcases hcases with ⟨se, be, hse, hbe, rfl⟩ | ⟨se, hse, hbe, hrest⟩
  · -- best EXACT present
    have hperm_se : se.Perm (tm.filter (fun m => m.tag == MatchType.exact)) :=
      sortByKey_some_perm hse
    have hbe_f := List.mem_filter.mp (hperm_se.subset (mem_of_head? hbe))
    have hbe_tm : be ∈ tm := hbe_f.1
    have hbe_tag : be.tag = MatchType.exact := by
      have := hbe_f.2
      rwa [beq_iff_eq] at this
    have hmin : ∀ m ∈ tm, m.tag = MatchType.exact → matchKeyLe be m := by
      intro m hm htag
      have hmf : m ∈ tm.filter (fun m => m.tag == MatchType.exact) :=
        List.mem_filter.mpr ⟨hm, by simp [htag]⟩
      exact head_min_of_pairwise (sortByKey_some_keys hse).2 hbe m
        (hperm_se.mem_iff.mpr hmf)
    refine ⟨?_, ?_, ?_, [be], ns, rfl, hperm_ns, hpw_ns,
      Or.inr ⟨be, rfl, hbe_tm, Or.inl ⟨hbe_tag, hmin⟩⟩⟩
    · simp only [List.length_cons]
      omega
    · rw [List.map_cons, List.nodup_cons]
      refine ⟨?_, hnd_take⟩
      intro hbeid
      obtain ⟨m, hm, hid⟩ := List.mem_map.mp hbeid
      have hmns : m ∈ ns := (List.take_sublist 2 ns).subset hm
      obtain ⟨hmtm, hmne, _⟩ := hns_tm m hmns
      have heq : m = be := hinj m hmtm be hbe_tm hid
      rw [heq] at hmne
      exact hmne hbe_tag
    · intro m hm
      rcases List.mem_cons.mp hm with rfl | hm'
      · exact hbe_tm
      · exact (hns_tm m ((List.take_sublist 2 ns).subset hm')).1
  · -- no EXACT match at all
    have hse_nil : se = [] := List.head?_eq_none_iff.mp hbe
    have hfil_nil : tm.filter (fun m => m.tag == MatchType.exact) = [] := by
      have hperm_se : se.Perm (tm.filter (fun m => m.tag == MatchType.exact)) :=
        sortByKey_some_perm hse
      rw [hse_nil] at hperm_se
      exact (hperm_se.symm).eq_nil
    have hnoex : ∀ m ∈ tm, m.tag ≠ MatchType.exact := by
      intro m hm htag
      have := List.filter_eq_nil_iff.mp hfil_nil m hm
      rw [htag] at this
      exact this (by simp)
    rcases hrest with ⟨sa, ba, hsa, hba, rfl⟩ | ⟨sa, hsa, hba, rfl⟩
    · -- best AND present
      have hperm_sa : sa.Perm (tm.filter (fun m => m.tag == MatchType.conj)) :=
        sortByKey_some_perm hsa
      have hba_f := List.mem_filter.mp (hperm_sa.subset (mem_of_head? hba))
      have hba_tm : ba ∈ tm := hba_f.1
      have hba_tag : ba.tag = MatchType.conj := by
        have := hba_f.2
        rwa [beq_iff_eq] at this
      have hmin : ∀ m ∈ tm, m.tag = MatchType.conj → matchKeyLe ba m := by
        intro m hm htag
        have hmf : m ∈ tm.filter (fun m => m.tag == MatchType.conj) :=
          List.mem_filter.mpr ⟨hm, by simp [htag]⟩
        exact head_min_of_pairwise (sortByKey_some_keys hsa).2 hba m
          (hperm_sa.mem_iff.mpr hmf)
      refine ⟨?_, ?_, ?_, [ba], ns, rfl, hperm_ns, hpw_ns,
        Or.inr ⟨ba, rfl, hba_tm, Or.inr ⟨hba_tag, hnoex, hmin⟩⟩⟩
      · simp only [List.length_cons]
        omega
      · rw [List.map_cons, List.nodup_cons]
        refine ⟨?_, hnd_take⟩
        intro hbaid
        obtain ⟨m, hm, hid⟩ := List.mem_map.mp hbaid
        have hmns : m ∈ ns := (List.take_sublist 2 ns).subset hm
        obtain ⟨hmtm, _, hmnc⟩ := hns_tm m hmns
        have heq : m = ba := hinj m hmtm ba hba_tm hid
        rw [heq] at hmnc
        exact hmnc hba_tag
      · intro m hm
        rcases List.mem_cons.mp hm with rfl | hm'
        · exact hba_tm
        · exact (hns_tm m ((List.take_sublist 2 ns).subset hm')).1
    · -- neither EXACT nor AND
      have hsa_nil : sa = [] := List.head?_eq_none_iff.mp hba
      have hfil_nil' : tm.filter (fun m => m.tag == MatchType.conj) = [] := by
        have hperm_sa : sa.Perm (tm.filter (fun m => m.tag == MatchType.conj)) :=
          sortByKey_some_perm hsa
        rw [hsa_nil] at hperm_sa
        exact (hperm_sa.symm).eq_nil
      have hnoco : ∀ m ∈ tm, m.tag ≠ MatchType.conj := by
        intro m hm htag
        have := List.filter_eq_nil_iff.mp hfil_nil' m hm
        rw [htag] at this
        exact this (by simp)
      refine ⟨by omega, hnd_take, ?_, [], ns, rfl, hperm_ns, hpw_ns,
        Or.inl ⟨rfl, fun m hm => ⟨hnoex m hm, hnoco m hm⟩⟩⟩
      intro m hm
      exact (hns_tm m ((List.take_sublist 2 ns).subset hm)).1

/-- Claim C5 witness: for phrase "python" and the singleton "Python" corpus
the ranker completes with the single exact match, and the proven bounds
apply. -/
theorem c5_witness :
    final_matches (top_matches (str "python") [c5_p]) = some [c5_m]
    ∧ ([c5_m] : List Match).length ≤ 3 :=
  ⟨by decide,
    (c5_two_phase_selection (str "python") [c5_p] [c5_m] (by decide) (by decide)).1⟩

/-- Claim C1 (refuted by the code — code bug): for phrase "nlp" and a corpus
whose only evidence is a course named "NLP", the aggregator produces a
course match, `skill_sort_key` on it is the `KeyError` (`none`) because the
source reads `match["skill"]`, and the ranker's step-3 sort therefore
crashes (`final_matches` is `none`) instead of assigning the default key. -/
theorem c1_sort_key_keyerror :
    skill_sort_key c1_match = none
    ∧ top_matches (str "nlp") [c1_profile] = [c1_match]
    ∧ final_matches (top_matches (str "nlp") [c1_profile]) = none :=
  ⟨rfl, by decide, by decide⟩

/-- Claim C7 counterexample: on a record whose only skill path is "-" (a
non-empty raw name normalizing to ""), the claim's normalizer — discard
empty raw names, then first-occurrence dedup by normalized name, modelled
by `spec_clean_claim` — keeps the entry, but the code discards it. -/
theorem c7_counterexample :
    (build_profile c7_emp).skills_struct = []
    ∧ spec_clean_claim [c7_dash] = [c7_dash]
    ∧ (build_profile c7_emp).skills_struct ≠ spec_clean_claim [c7_dash] := by
  have h1 : (build_profile c7_emp).skills_struct = [] := by decide
  have h2 : spec_clean_claim [c7_dash] = [c7_dash] := by
    unfold spec_clean_claim
    rw [if_neg (by decide)]
    simp only [List.filter_nil]
    unfold spec_clean_claim
    rfl
  refine ⟨h1, h2, ?_⟩
  rw [h1, h2]
  simp

theorem clean_skills_aux_eq (l : List Skill) : ∀ seen : List Str,
    clean_skills_aux seen l =
      spec_clean_code (l.filter (fun s => !(seen.contains (normalize s.name)))) := by
  induction l with
  | nil =>
    intro seen
    simp only [List.filter_nil]
    unfold clean_skills_aux spec_clean_code
    rfl
  | cons s rest ih =>
    intro seen
    unfold clean_skills_aux
    by_cases hseen : normalize s.name ∈ seen
    · have hcontains : seen.contains (normalize s.name) = true := contains_iff_mem.mpr hseen
      rw [if_neg (fun hcon => hcon.2 hseen)]
      rw [List.filter_cons_of_neg (by
        show ¬(!(seen.contains (normalize s.name))) = true
        rw [hcontains]
        simp)]
      exact ih seen
    · have hcontains : seen.contains (normalize s.name) = false := by
        rw [← Bool.not_eq_true, contains_iff_mem]
        exact hseen
      rw [List.filter_cons_of_pos (by
        show (!(seen.contains (normalize s.name))) = true
        rw [hcontains]
        rfl)]
      by_cases hn : normalize s.name = []
      · rw [if_neg (fun hcon => hcon.1 hn)]
        unfold spec_clean_code
        rw [if_pos hn]
        exact ih seen
      · rw [if_pos ⟨hn, hseen⟩]
        unfold spec_clean_code
        rw [if_neg hn]
        rw [ih (normalize s.name :: seen)]
        refine congrArg (List.cons s) (congrArg spec_clean_code ?_)
        rw [List.filter_filter]
        apply List.filter_congr
        intro t _
        show (!((normalize s.name :: seen).contains (normalize t.name))) =
          ((!(normalize t.name == normalize s.name))
            && (!(seen.contains (normalize t.name))))
        rw [show (normalize s.name :: seen).contains (normalize t.name) =
          ((normalize t.name == normalize s.name)
            || seen.contains (normalize t.name)) from rfl]
        rw [Bool.not_or]

theorem clean_skills_eq_spec (l : List Skill) : clean_skills l = spec_clean_code l := by
  unfold clean_skills
  rw [clean_skills_aux_eq l []]
  have hfil : l.filter (fun s => !(([] : List Str).contains (normalize s.name))) = l := by
    apply List.filter_eq_self.mpr
    intro a _
    rfl
  rw [hfil]

/-- Claim C7 as amended: the Profile Normalizer discards skill entries whose
raw name is empty *or whose normalized name is empty*, deduplicates the rest
by normalized name keeping the first occurrence in source order
(`spec_clean_code` is that declarative description, and `clean_skills`
equals it), discards course and certification entries with an empty name,
and applies no deduplication to courses or certifications (both are plain
filter-maps preserving order and multiplicity). -/
theorem c7_normalizer_amended :
    (∀ l : List Skill, clean_skills l = spec_clean_code l)
    ∧ (∀ emp : RawEmployee,
        (build_profile emp).skills_struct =
          spec_clean_code ((emp.skills.filter (fun s => s.path ≠ [])).map
            (fun s => ⟨s.path, s.proficiency, s.isPrimary, s.isCurrent,
              s.experienceProjectMths⟩))
        ∧ (build_profile emp).courses_struct =
            (emp.courses.filter (fun c => c.courseName ≠ [])).map
              (fun c => ⟨c.courseName, c.completedon⟩)
        ∧ (build_profile emp).certs_struct =
            (emp.certifications.filter (fun c => c.certificationName ≠ [])).map
              (fun c => ⟨c.certificationName, c.certifiedon⟩)) := by
  refine ⟨clean_skills_eq_spec, ?_⟩
  intro emp
  exact ⟨clean_skills_eq_spec _, rfl, rfl⟩

theorem semantic_loop_two {tm : List Match} (h : tm.length = 2) :
    ∀ metas : List MetaRecord,
    semantic_loop tm metas = (metas.filter (fun mt =>
      !((tm.map (fun m => m.profile.empID)).contains mt.empID))).take 1 := by
  intro metas
  induction metas with
  | nil => rfl
  | cons meta rest ih =>
    unfold semantic_loop
    rcases hc : (tm.map (fun m => m.profile.empID)).contains meta.empID with _ | _
    · rw [if_neg (by rw [hc]; simp), if_pos (by omega),
        List.filter_cons_of_pos (by
          show (!((tm.map (fun m => m.profile.empID)).contains meta.empID)) = true
          rw [hc]
          rfl)]
      rfl
    · rw [if_pos hc, List.filter_cons_of_neg (by
        show ¬(!((tm.map (fun m => m.profile.empID)).contains meta.empID)) = true
        rw [hc]
        simp)]
      exact ih

theorem semantic_loop_low {tm : List Match} (h : tm.length ≤ 1) :
    ∀ metas : List MetaRecord,
    semantic_loop tm metas = metas.filter (fun mt =>
      !((tm.map (fun m => m.profile.empID)).contains mt.empID)) := by
  intro metas
  induction metas with
  | nil => rfl
  | cons meta rest ih =>
    unfold semantic_loop
    rcases hc : (tm.map (fun m => m.profile.empID)).contains meta.empID with _ | _
    · rw [if_neg (by rw [hc]; simp), if_neg (by omega),
        List.filter_cons_of_pos (by
          show (!((tm.map (fun m => m.profile.empID)).contains meta.empID)) = true
          rw [hc]
          rfl)]
      rw [ih]
    · rw [if_pos hc, List.filter_cons_of_neg (by
        show ¬(!((tm.map (fun m => m.profile.empID)).contains meta.empID)) = true
        rw [hc]
        simp)]
      exact ih

/-- Claim C2 counterexample: for query "who knows nlp?" over an empty corpus
with three fresh Vector Index results, the fallback runs and displays all
three results, yet the accumulated match list stays empty — nothing is
added as a Match(SEMANTIC) and the result set is not filled up to 3. -/
theorem c2_counterexample :
    (run_query (str "who knows nlp?") [] [c2_m1, c2_m2, c2_m3]).shown
      = [c2_m1, c2_m2, c2_m3]
    ∧ (run_query (str "who knows nlp?") [] [c2_m1, c2_m2, c2_m3]).accumulated = []
    ∧ ((run_query (str "who knows nlp?") [] [c2_m1, c2_m2, c2_m3]).accumulated).length ≠ 3 :=
  ⟨by decide, by decide, by decide⟩

/-- Claim C2 as amended: the semantic fallback runs exactly when fewer than
3 matches were accumulated, and it only *displays* Vector Index results
whose profile identity is not already present — the accumulated match list
is never extended.  With 3 or more accumulated matches nothing is shown;
with exactly 2 the loop breaks after the first fresh result; with at most 1
every fresh result is shown.  After the fallback, the run's accumulated
matches are exactly the symbolic tiers' output. -/
theorem c2_fallback_displays_not_accumulates :
    (∀ (tm : List Match) (metas : List MetaRecord),
        (3 ≤ tm.length → semantic_display tm metas = [])
        ∧ (tm.length = 2 → semantic_display tm metas =
            (metas.filter (fun mt =>
              !((tm.map (fun m => m.profile.empID)).contains mt.empID))).take 1)
        ∧ (tm.length ≤ 1 → semantic_display tm metas =
            metas.filter (fun mt =>
              !((tm.map (fun m => m.profile.empID)).contains mt.empID))))
    ∧ (∀ (query : Str) (data : List Profile) (vres : List MetaRecord) (sp0 : Str),
        extract_skill_phrase query = some sp0 → sp0 ≠ [] →
        (run_query query data vres).accumulated =
          top_matches (pyReplace (pyReplace sp0 (str " and ") (str "|"))
            (str " or ") (str "|")) data) := by
  constructor
  · intro tm metas
    refine ⟨?_, ?_, ?_⟩
    · intro h
      unfold semantic_display
      rw [if_neg (by omega)]
    · intro h
      unfold semantic_display
      rw [if_pos (by omega)]
      exact semantic_loop_two h metas
    · intro h
      unfold semantic_display
      rw [if_pos (by omega)]
      exact semantic_loop_low h metas
  · intro query data vres sp0 hx hne
    simp only [run_query, hx]
    rw [if_neg hne]
    rfl

/-- Claim C2 witness: the accumulated-matches conjunct applied at the
concrete query "who knows nlp?" over the empty corpus. -/
theorem c2_witness :
    (run_query (str "who knows nlp?") [] [c2_m1]).accumulated =
      top_matches (pyReplace (pyReplace (str "nlp") (str " and ") (str "|"))
        (str " or ") (str "|")) [] :=
  c2_fallback_displays_not_accumulates.2 (str "who knows nlp?") [] [c2_m1] (str "nlp")
    (by decide) (by decide)

/-- Claim C9: when no skill phrase can be extracted from the query (the
pattern does not match, or the captured group strips to the empty string),
the program reports "no phrase" and performs no matching at all — the run's
outcome is the terminal report for every corpus and every Vector Index, so
no strategy is consulted and no fallback query is issued. -/
theorem c9_no_phrase_terminal (query : Str)
    (h : extract_skill_phrase query = none ∨ extract_skill_phrase query = some []) :
    ∀ (data : List Profile) (vres : List MetaRecord),
      run_query query data vres = RunResult.noPhrase := by
  intro data vres
  unfold run_query
  rcases h with h | h <;> rw [h] <;> rfl

/-- Claim C9 witness: the query "hello" matches no phrase, so even over a
corpus with matchable evidence the run yields the terminal report. -/
theorem c9_witness :
    run_query (str "hello") [c1_profile] [c2_m1] = RunResult.noPhrase :=
  c9_no_phrase_terminal (str "hello") (Or.inl (by decide)) [c1_profile] [c2_m1]

end VSM
